import Mathlib

/-!
# WinFilter fixed-point FIR band-pass filters (Capulin chart software)

A shallow embedding of the three generated routines found under
`filter development/`:

* `Butterworth 0.05MHz to 1.95MHz 3rd order.c`
* `Butterworth 0.05MHz to 1.95MHz 6th order.c`
* `Butterworth 4.05MHz to 5.95MHz 6th order.c`

Each file defines the macros `Ntap` and `DCgain` and one function
`__int16 fir(__int16 NewSample)` with a local coefficient table `FIRCoef`, a
`static __int16 x[Ntap]` history, and a `__int32 y` accumulator.

Modelling conventions.

* `__int16` and `__int32` values are mathematical integers (`Int`); every
  place where the machine narrows a value is an explicit `wrap16` or `wrap32`
  (two's complement reduction).
* The C array `x` is a `List Int`; `x[n]` is `x.getD n 0` and `x[n] = v` is
  `x.set n v`.  The `static` array is threaded through as explicit state:
  `fir` takes the history and returns the result together with the new
  history.
* `y / DCgain` is C integer division, which truncates toward zero
  (`Int.tdiv`).
* Where several routines run in one program, their static arrays are regions of
  one memory (`List Int`) and `firAt` is the same body with `x[n]` read and
  written as the memory cell `base + n`.
-/

namespace WinFilter

/-! ## Machine integers -/

/-- Membership in the signed 16-bit range of `__int16`. -/
def isInt16 (v : Int) : Prop := -32768 ≤ v ∧ v ≤ 32767

/-- Membership in the signed 32-bit range of `__int32`. -/
def isInt32 (v : Int) : Prop := -2147483648 ≤ v ∧ v ≤ 2147483647

instance (v : Int) : Decidable (isInt16 v) := by unfold isInt16; infer_instance

instance (v : Int) : Decidable (isInt32 v) := by unfold isInt32; infer_instance

/-- Two's complement reduction of an integer to the signed 16-bit range. -/
def wrap16 (v : Int) : Int := (v + 32768) % 65536 - 32768

/-- Two's complement reduction of an integer to the signed 32-bit range. -/
def wrap32 (v : Int) : Int := (v + 2147483648) % 4294967296 - 2147483648

/-- C integer division `a / b` on `int`: the quotient truncated toward zero. -/
def truncDiv (a b : Int) : Int := Int.tdiv a b

/-! ## The two loops of `fir` -/

/-- The loop `for(n=k; n>0; n--) x[n] = x[n-1];` started at `n = k`:
the state of `x` when the loop exits. -/
def shiftLoop : Nat → List Int → List Int
  | 0, x => x
  | n + 1, x => shiftLoop n (x.set (n + 1) (x.getD n 0))

/-- The loop `for(n=0; n<k; n++) y += FIRCoef[n] * x[n];` started with `y = 0`:
the value of the `__int32` accumulator `y` after `k` iterations.  The product
is an `int` product of two promoted `__int16` values and the sum is stored
back into the 32-bit `y`. -/
def macLoop (FIRCoef x : List Int) : Nat → Int
  | 0 => 0
  | k + 1 => wrap32 (macLoop FIRCoef x k + wrap32 (FIRCoef.getD k 0 * x.getD k 0))

/-- The history `x` after the shift loop and the store `x[0] = NewSample`. -/
def firHistory (Ntap : Nat) (x : List Int) (NewSample : Int) : List Int :=
  (shiftLoop (Ntap - 1) x).set 0 NewSample

/-- The accumulator `y` of `fir` when the multiply-accumulate loop exits. -/
def firSum (Ntap : Nat) (FIRCoef x : List Int) (NewSample : Int) : Int :=
  macLoop FIRCoef (firHistory Ntap x NewSample) Ntap

/-- The body shared verbatim by the three files, over that file's `Ntap`,
`FIRCoef` and `DCgain`: shift the history, store the new sample, accumulate,
divide, narrow the quotient to the `__int16` result.  Returns the result and
the new contents of the static array `x`. -/
def fir (Ntap : Nat) (FIRCoef : List Int) (DCgain : Int) (x : List Int) (NewSample : Int) :
    Int × List Int :=
  (wrap16 (truncDiv (firSum Ntap FIRCoef x NewSample) DCgain), firHistory Ntap x NewSample)

/-- The caller's loop: one call of the routine `f` per sample of the stream,
the static history carried from call to call.  Returns the list of returned
values and the final history. -/
def runFir (f : List Int → Int → Int × List Int) : List Int → List Int → List Int × List Int
  | x, [] => ([], x)
  | x, s :: rest => ((f x s).1 :: (runFir f (f x s).2 rest).1, (runFir f (f x s).2 rest).2)

/-- The values of the accumulator `y` at the successive calls of a run. -/
def runSums (Ntap : Nat) (FIRCoef : List Int) : List Int → List Int → List Int
  | _, [] => []
  | x, s :: rest =>
    firSum Ntap FIRCoef x s :: runSums Ntap FIRCoef (firHistory Ntap x s) rest

end WinFilter

/-! ## The three generated files -/

namespace Bw005to195Order3

/-- Macro `Ntap`, defined as 31. -/
def Ntap : Nat := 31

/-- Macro `DCgain`, defined as 262144. -/
def DCgain : Int := 262144

/-- The table of `Butterworth 0.05MHz to 1.95MHz 3rd order.c`. -/
def FIRCoef : List Int :=
  [-565, 182, 1129, 2290, 3679, 5303, 7163, 9251, 11547, 14018, 16609, 19243, 21811,
   24157, 25979, 26878, 25979, 24157, 21811, 19243, 16609, 14018, 11547, 9251, 7163,
   5303, 3679, 2290, 1129, 182, -565]

/-- The routine `fir` of the 3rd-order 0.05-1.95 MHz file. -/
def fir (x : List Int) (NewSample : Int) : Int × List Int :=
  WinFilter.fir Ntap FIRCoef DCgain x NewSample

end Bw005to195Order3

namespace Bw005to195Order6

/-- Macro `Ntap`, defined as 31. -/
def Ntap : Nat := 31

/-- Macro `DCgain`, defined as 1. -/
def DCgain : Int := 1

/-- The table of `Butterworth 0.05MHz to 1.95MHz 6th order.c`. -/
def FIRCoef : List Int :=
  [0, 0, 0, 0, 0, 0, 0, 0, 0, 0, 0, 0, 0, 0, 0, 0, 0, 0, 0, 0, 0, 0, 0, 0, 0, 0, 0, 0, 0, 0, 0]

/-- The routine `fir` of the 6th-order 0.05-1.95 MHz file. -/
def fir (x : List Int) (NewSample : Int) : Int × List Int :=
  WinFilter.fir Ntap FIRCoef DCgain x NewSample

end Bw005to195Order6

namespace Bw405to595Order6

/-- Macro `Ntap`, defined as 31. -/
def Ntap : Nat := 31

/-- Macro `DCgain`, defined as 262144. -/
def DCgain : Int := 262144

/-- The table of `Butterworth 4.05MHz to 5.95MHz 6th order.c`. -/
def FIRCoef : List Int :=
  [7701, 12028, 14003, 12797, 8322, 1342, -6642, -13727, -18080, -18427, -14436, -6856,
   2618, 11748, 18316, 20704, 18316, 11748, 2618, -6856, -14436, -18427, -18080, -13727,
   -6642, 1342, 8322, 12797, 14003, 12028, 7701]

/-- The routine `fir` of the 6th-order 4.05-5.95 MHz file. -/
def fir (x : List Int) (NewSample : Int) : Int × List Int :=
  WinFilter.fir Ntap FIRCoef DCgain x NewSample

end Bw405to595Order6

namespace WinFilter

/-- The three generated filters. -/
inductive Variant
  | order3Low
  | order6Low
  | order6High
  deriving DecidableEq

namespace Variant

/-- The tap count `Ntap` of a file. -/
def Ntap : Variant → Nat
  | order3Low => Bw005to195Order3.Ntap
  | order6Low => Bw005to195Order6.Ntap
  | order6High => Bw405to595Order6.Ntap

/-- The divisor `DCgain` of a file. -/
def DCgain : Variant → Int
  | order3Low => Bw005to195Order3.DCgain
  | order6Low => Bw005to195Order6.DCgain
  | order6High => Bw405to595Order6.DCgain

/-- The table `FIRCoef` of a file. -/
def FIRCoef : Variant → List Int
  | order3Low => Bw005to195Order3.FIRCoef
  | order6Low => Bw005to195Order6.FIRCoef
  | order6High => Bw405to595Order6.FIRCoef

/-- The routine `fir` of a file. -/
def fir : Variant → List Int → Int → Int × List Int
  | order3Low => Bw005to195Order3.fir
  | order6Low => Bw005to195Order6.fir
  | order6High => Bw405to595Order6.fir

end Variant

/-! ## Streams, exact sums and ranges -/

/-- The contents of a `static __int16 x[Ntap]` before the first call. -/
def zeroHistory (Ntap : Nat) : List Int := List.replicate Ntap 0

/-- The sample `sample[k-n]` of a stream, taken as `0` before the stream starts
(and past its end). -/
def sampleAt (A : List Int) (k n : Nat) : Int :=
  if n ≤ k then A.getD (k - n) 0 else 0

/-- The exact integer value `Σ_{n<m} FIRCoef[n] * x[n]`, with no machine
narrowing: the `m`-th partial sum of the accumulation. -/
def exactSum (FIRCoef x : List Int) : Nat → Int
  | 0 => 0
  | m + 1 => exactSum FIRCoef x m + FIRCoef.getD m 0 * x.getD m 0

/-- The exact convolution partial sum `Σ_{n<m} FIRCoef[n] * sample[k-n]`. -/
def convSum (FIRCoef A : List Int) (k : Nat) : Nat → Int
  | 0 => 0
  | m + 1 => convSum FIRCoef A k m + FIRCoef.getD m 0 * sampleAt A k m

/-- The contents of the history after `j` calls of a run on the stream `A`
started from the zero history: entry `n` is `A[j-1-n]`, or `0` where the stream
has not started yet. -/
def histAfter (N : Nat) (A : List Int) (j : Nat) : List Int :=
  (List.range N).map (fun n => if n < j then A.getD (j - 1 - n) 0 else 0)

/-- The sum of the magnitudes of the first `m` coefficients, `Σ_{n<m} |FIRCoef[n]|`. -/
def absSum (FIRCoef : List Int) : Nat → Int
  | 0 => 0
  | m + 1 => absSum FIRCoef m + |FIRCoef.getD m 0|

/-- The largest sample magnitude for which `Σ |FIRCoef[n]|` times the magnitude
still fits the 32-bit accumulator: `⌊(2^31 - 1) / 352730⌋` and
`⌊(2^31 - 1) / 354790⌋` for the two non-degenerate tables; the whole 16-bit
range for the all-zero table. -/
def Variant.safeMagnitude : Variant → Int
  | order3Low => 6088
  | order6Low => 32768
  | order6High => 6052

/-- The stream `c * A[i] + B[i]`. -/
def combine (c : Int) (A B : List Int) : List Int :=
  List.zipWith (fun a b => c * a + b) A B

/-- No accumulator overflow occurs in a run on the stream `S` from the zero
history: at every call, every partial sum of the exact accumulation lies in the
signed 32-bit range. -/
def NoOverflow (FIRCoef S : List Int) : Prop :=
  ∀ k, k < S.length → ∀ m, m ≤ 31 → isInt32 (convSum FIRCoef S k m)

instance (FIRCoef S : List Int) : Decidable (NoOverflow FIRCoef S) := by
  unfold NoOverflow; infer_instance

/-- A full-scale history for the 4.05-5.95 MHz table.  With the new sample
`32767` stored in front of its first 30 entries, every sample is `32767` or
`-32767` with the sign of its coefficient (the table has 6 positive, 6
negative, 7 positive, 6 negative and 6 positive coefficients); the last entry
is the one the call shifts out. -/
def fullScaleMatched : List Int :=
  List.replicate 5 32767 ++ List.replicate 6 (-32767) ++ List.replicate 7 32767 ++
    List.replicate 6 (-32767) ++ List.replicate 7 32767

/-! ## A checked execution of `fir` -/

/-- The ways one call of `fir` could go wrong. -/
inductive FirError
  | indexOutOfBounds
  | divideByZero
  | loopDidNotExit
  deriving DecidableEq

/-- A checked array read `a[n]`. -/
def readAt (a : List Int) (n : Nat) : Except FirError Int :=
  match a[n]? with
  | some v => .ok v
  | none => .error .indexOutOfBounds

/-- A checked array store `a[n] = v`. -/
def writeAt (a : List Int) (n : Nat) (v : Int) : Except FirError (List Int) :=
  if n < a.length then .ok (a.set n v) else .error .indexOutOfBounds

/-- The loop `for(...; n>0; n--) x[n] = x[n-1];` from the current value of `n`,
with every index checked and at most `fuel` iterations allowed. -/
def shiftLoopChecked : Nat → Nat → List Int → Except FirError (List Int)
  | _, 0, x => .ok x
  | 0, _ + 1, _ => .error .loopDidNotExit
  | fuel + 1, n + 1, x =>
    match readAt x n with
    | .error e => .error e
    | .ok v =>
      match writeAt x (n + 1) v with
      | .error e => .error e
      | .ok x1 => shiftLoopChecked fuel n x1

/-- The loop `for(...; n<Ntap; n++) y += FIRCoef[n] * x[n];` from the current
values of `n` and `y`, with every index checked and at most `fuel` iterations
allowed. -/
def macLoopChecked (Ntap : Nat) (FIRCoef x : List Int) : Nat → Nat → Int → Except FirError Int
  | 0, n, y => if n < Ntap then .error .loopDidNotExit else .ok y
  | fuel + 1, n, y =>
    if n < Ntap then
      match readAt FIRCoef n with
      | .error e => .error e
      | .ok c =>
        match readAt x n with
        | .error e => .error e
        | .ok s => macLoopChecked Ntap FIRCoef x fuel (n + 1) (wrap32 (y + wrap32 (c * s)))
    else .ok y

/-- One call of `fir` with every array index and the divisor checked, each loop
allowed at most `fuel` iterations.  (An accumulator that leaves the 32-bit
range is not an error here: it wraps, as in `macLoop`.) -/
def firChecked (fuel Ntap : Nat) (FIRCoef : List Int) (DCgain : Int) (x : List Int)
    (NewSample : Int) : Except FirError (Int × List Int) :=
  match shiftLoopChecked fuel (Ntap - 1) x with
  | .error e => .error e
  | .ok x1 =>
    match writeAt x1 0 NewSample with
    | .error e => .error e
    | .ok x2 =>
      match macLoopChecked Ntap FIRCoef x2 fuel 0 0 with
      | .error e => .error e
      | .ok y =>
        if DCgain = 0 then .error .divideByZero
        else .ok (wrap16 (truncDiv y DCgain), x2)

/-! ## Several routines in one program -/

/-- The contents of the array of `len` entries stored at address `base` of a
program memory. -/
def region (mem : List Int) (base len : Nat) : List Int :=
  (mem.drop base).take len

/-- The loop `for(n=k; n>0; n--) x[n] = x[n-1];` when the static array `x` is
stored at address `base` of the program memory: `x[n]` is the cell
`base + n`. -/
def shiftLoopAt (base : Nat) : Nat → List Int → List Int
  | 0, mem => mem
  | n + 1, mem => shiftLoopAt base n (mem.set (base + (n + 1)) (mem.getD (base + n) 0))

/-- The loop `for(n=0; n<k; n++) y += FIRCoef[n] * x[n];` when `x` is stored at
address `base` of the program memory. -/
def macLoopAt (base : Nat) (FIRCoef mem : List Int) : Nat → Int
  | 0 => 0
  | k + 1 =>
    wrap32 (macLoopAt base FIRCoef mem k + wrap32 (FIRCoef.getD k 0 * mem.getD (base + k) 0))

/-- The body of `fir` run on a program memory that holds its static array `x`
at address `base`: every `x[n]` of the source is the memory cell `base + n`.
Returns the result and the memory after the call. -/
def firAt (base Ntap : Nat) (FIRCoef : List Int) (DCgain : Int) (mem : List Int)
    (NewSample : Int) : Int × List Int :=
  (wrap16 (truncDiv
      (macLoopAt base FIRCoef ((shiftLoopAt base (Ntap - 1) mem).set base NewSample) Ntap)
      DCgain),
    (shiftLoopAt base (Ntap - 1) mem).set base NewSample)

/-- The routine `fir` of a file, its static array stored at address `base`. -/
def Variant.firAt (v : Variant) (base : Nat) (mem : List Int) (NewSample : Int) :
    Int × List Int :=
  WinFilter.firAt base v.Ntap v.FIRCoef v.DCgain mem NewSample

/-- An interleaved sequence of calls on one program memory, each call naming
its routine and its sample; `bases v` is the address of the static array of
routine `v`.  Returns the results, each tagged with its routine, and the final
memory. -/
def runCallsAt (bases : Variant → Nat) : List Int → List (Variant × Int) →
    List (Variant × Int) × List Int
  | mem, [] => ([], mem)
  | mem, c :: rest =>
    ((c.1, (c.1.firAt (bases c.1) mem c.2).1) ::
        (runCallsAt bases (c.1.firAt (bases c.1) mem c.2).2 rest).1,
      (runCallsAt bases (c.1.firAt (bases c.1) mem c.2).2 rest).2)

/-- The values tagged with the routine `X`, in order: the samples fed to `X` in
a call sequence, or the results of `X` in a result sequence. -/
def streamOf (X : Variant) (l : List (Variant × Int)) : List Int :=
  (l.filter (fun c => decide (c.1 = X))).map Prod.snd

/-! ## The engine as the specification words it -/

namespace Spec

/-- The specification's `CoefficientSet`: the ordered tap weights together with
the gain divisor that belongs to them. -/
structure CoefficientSet where
  coefficients : List Int
  gain_divisor : Int

/-- The specification's single operation `process` of the one generic engine,
written over whole sequences rather than index loops.  Steps 1 and 2: the
oldest (last) entry of the history is discarded and the new sample is stored at
the front.  Step 3: the weighted sum of coefficients and history, accumulated
left to right in the 32-bit accumulator of the 16-bit filters.  Step 4: the sum
divided by the gain divisor, truncated toward zero, returned as a sample of the
input width.  Returns the output sample and the new history. -/
def process (cs : CoefficientSet) (history : List Int) (new_sample : Int) : Int × List Int :=
  let shifted := new_sample :: history.dropLast
  let sum := (List.zip cs.coefficients shifted).foldl (fun acc p => wrap32 (acc + p.1 * p.2)) 0
  (wrap16 (truncDiv sum cs.gain_divisor), shifted)

end Spec

/-- The coefficient set of a file: its table with its `DCgain`. -/
def Variant.coefficientSet (v : Variant) : Spec.CoefficientSet :=
  { coefficients := v.FIRCoef, gain_divisor := v.DCgain }

/-- The negated stream `-A`. -/
def negate (A : List Int) : List Int := A.map (fun a => -a)

end WinFilter

/-! ## Machine arithmetic lemmas -/

namespace WinFilter

theorem wrap32_of_isInt32 {v : Int} (h : isInt32 v) : wrap32 v = v := by
  unfold isInt32 at h; unfold wrap32; omega

theorem isInt32_wrap32 (v : Int) : isInt32 (wrap32 v) := by
  unfold isInt32 wrap32; omega

theorem wrap32_add_wrap32 (a b : Int) : wrap32 (a + wrap32 b) = wrap32 (a + b) := by
  unfold wrap32; omega

theorem wrap32_wrap32_add (a b : Int) : wrap32 (wrap32 a + b) = wrap32 (a + b) := by
  unfold wrap32; omega

theorem wrap16_of_isInt16 {v : Int} (h : isInt16 v) : wrap16 v = v := by
  unfold isInt16 at h; unfold wrap16; omega

theorem isInt16_wrap16 (v : Int) : isInt16 (wrap16 v) := by
  unfold isInt16 wrap16; omega

theorem truncDiv_of_nonneg {y g : Int} (hy : 0 ≤ y) (hg : 0 ≤ g) : truncDiv y g = y / g :=
  Int.tdiv_eq_ediv hy hg

theorem truncDiv_of_neg {y g : Int} (hy : y ≤ 0) (hg : 0 ≤ g) : truncDiv y g = -((-y) / g) := by
  unfold truncDiv
  have h : y = -(-y) := by omega
  rw [h, Int.neg_tdiv, Int.tdiv_eq_ediv (by omega) hg, Int.neg_neg]

/-- The defining property of truncation toward zero, for a positive divisor. -/
theorem truncDiv_remainder (y g : Int) (hg : 0 < g) :
    |y - truncDiv y g * g| < g ∧
      (y - truncDiv y g * g = 0 ∨ (0 < y - truncDiv y g * g ∧ 0 < y) ∨
        (y - truncDiv y g * g < 0 ∧ y < 0)) := by
  rcases le_total 0 y with hy | hy
  · rw [truncDiv_of_nonneg hy hg.le]
    have h1 := Int.emod_nonneg y hg.ne.symm
    have h2 := Int.emod_lt_of_pos y hg
    have h3 : y - y / g * g = y % g := by
      have := Int.ediv_add_emod y g
      rw [Int.mul_comm] at this; omega
    rw [h3, abs_of_nonneg h1]
    refine ⟨h2, ?_⟩
    rcases h1.eq_or_lt with h | h
    · exact Or.inl h.symm
    · refine Or.inr (Or.inl ⟨h, ?_⟩)
      rcases hy.eq_or_lt with h0 | h0
      · rw [← h0] at h; simp at h
      · exact h0
  · rw [truncDiv_of_neg hy hg.le]
    have h1 := Int.emod_nonneg (-y) hg.ne.symm
    have h2 := Int.emod_lt_of_pos (-y) hg
    have h3 : y - -(-y / g) * g = -((-y) % g) := by
      have := Int.ediv_add_emod (-y) g
      rw [Int.mul_comm] at this
      have h4 : -(-y / g) * g = -(-y / g * g) := by ring
      omega
    rw [h3, abs_neg, abs_of_nonneg h1]
    refine ⟨h2, ?_⟩
    rcases h1.eq_or_lt with h | h
    · exact Or.inl (by omega)
    · refine Or.inr (Or.inr ⟨by omega, ?_⟩)
      rcases hy.eq_or_lt with h0 | h0
      · rw [h0] at h; simp at h
      · exact h0

theorem isInt16_truncDiv_262144 {y : Int} (hy : isInt32 y) : isInt16 (truncDiv y 262144) := by
  unfold isInt32 at hy; unfold isInt16
  rcases le_total 0 y with h | h
  · rw [truncDiv_of_nonneg h (by decide)]; omega
  · rw [truncDiv_of_neg h (by decide)]; omega

/-! ## The loops -/

theorem macLoop_eq_wrap32 (c x : List Int) (k : Nat) :
    macLoop c x k = wrap32 (exactSum c x k) := by
  induction k with
  | zero => simp [macLoop, exactSum, wrap32]
  | succ k ih => simp only [macLoop, exactSum, ih, wrap32_add_wrap32, wrap32_wrap32_add]

theorem isInt32_macLoop (c x : List Int) (k : Nat) : isInt32 (macLoop c x k) := by
  rw [macLoop_eq_wrap32]; exact isInt32_wrap32 _

theorem length_shiftLoop (k : Nat) (x : List Int) : (shiftLoop k x).length = x.length := by
  induction k generalizing x with
  | zero => rfl
  | succ k ih => simp [shiftLoop, ih]

theorem getElem?_shiftLoop (k : Nat) (x : List Int) (hk : k < x.length) (j : Nat) :
    (shiftLoop k x)[j]? = if 1 ≤ j ∧ j ≤ k then x[j - 1]? else x[j]? := by
  induction k generalizing x with
  | zero =>
    have : ¬ (1 ≤ j ∧ j ≤ 0) := by omega
    rw [if_neg this]; rfl
  | succ k ih =>
    simp only [shiftLoop]
    rw [ih _ (by simp; omega)]
    have hx : x[k]? = some (x.getD k 0) := by
      rw [List.getD_eq_getElem?_getD, List.getElem?_eq_getElem (by omega)]; rfl
    by_cases h1 : 1 ≤ j ∧ j ≤ k
    · have h2 : 1 ≤ j ∧ j ≤ k + 1 := by omega
      rw [if_pos h1, if_pos h2, List.getElem?_set_ne (by omega)]
    · rw [if_neg h1]
      by_cases h3 : j = k + 1
      · subst h3
        rw [if_pos (by omega), List.getElem?_set_self (by omega), Nat.add_sub_cancel, hx]
      · rw [if_neg (by omega), List.getElem?_set_ne (by omega)]

/-- The in-place descending copy followed by the store at index 0 pushes the
new sample in front of the first `Ntap - 1` old entries. -/
theorem firHistory_eq (N : Nat) (x : List Int) (s : Int) (hN : 1 ≤ N) (hx : x.length = N) :
    firHistory N x s = s :: x.take (N - 1) := by
  unfold firHistory
  apply List.ext_getElem?
  intro j
  rw [List.getElem?_set]
  rcases j with _ | j
  · have hne : x ≠ [] := by rintro rfl; simp at hx; omega
    simp [length_shiftLoop, hne]
  · rw [if_neg (by omega), getElem?_shiftLoop _ _ (by omega)]
    simp only [List.getElem?_cons_succ, Nat.add_sub_cancel, List.getElem?_take]
    by_cases h : j < N - 1
    · rw [if_pos (by omega), if_pos h]
    · rw [if_neg (by omega), if_neg h]
      exact List.getElem?_eq_none (by omega)

theorem length_firHistory (N : Nat) (x : List Int) (s : Int) :
    (firHistory N x s).length = x.length := by
  simp [firHistory, length_shiftLoop]

theorem fir_snd (N : Nat) (c : List Int) (g : Int) (x : List Int) (s : Int) :
    (fir N c g x s).2 = firHistory N x s := rfl

end WinFilter

/-! ## Runs from the zero history -/

namespace WinFilter

theorem length_histAfter (N : Nat) (A : List Int) (j : Nat) : (histAfter N A j).length = N := by
  simp [histAfter]

theorem histAfter_zero (N : Nat) (A : List Int) : histAfter N A 0 = zeroHistory N := by
  unfold histAfter zeroHistory
  apply List.ext_getElem?
  intro i
  by_cases h : i < N
  · simp [List.getElem?_replicate, h]
  · simp [List.getElem?_replicate, h]

theorem getD_histAfter (N : Nat) (A : List Int) (k n : Nat) (hn : n < N) :
    (histAfter N A (k + 1)).getD n 0 = sampleAt A k n := by
  unfold histAfter sampleAt
  rw [List.getD_eq_getElem?_getD, List.getElem?_map, List.getElem?_range hn]
  simp only [Option.map_some', Option.getD_some, Nat.add_sub_cancel]
  by_cases h : n ≤ k
  · rw [if_pos (by omega), if_pos h]
  · rw [if_neg (by omega), if_neg h]

theorem firHistory_histAfter (N : Nat) (A : List Int) (j : Nat) (hN : 1 ≤ N) :
    firHistory N (histAfter N A j) (A.getD j 0) = histAfter N A (j + 1) := by
  rw [firHistory_eq N _ _ hN (length_histAfter N A j)]
  apply List.ext_getElem?
  intro i
  rcases i with _ | i
  · simp [histAfter, List.getElem?_range (show 0 < N by omega)]
  · simp only [List.getElem?_cons_succ, List.getElem?_take, histAfter, List.getElem?_map]
    by_cases h : i < N - 1
    · rw [if_pos h, List.getElem?_range (by omega), List.getElem?_range (by omega)]
      simp only [Option.map_some', Option.some.injEq]
      by_cases h2 : i < j
      · rw [if_pos h2, if_pos (by omega)]
        congr 1; omega
      · rw [if_neg h2, if_neg (by omega)]
    · rw [if_neg h, List.getElem?_eq_none (by simp; omega)]; rfl

theorem exactSum_histAfter (c A : List Int) (N k m : Nat) (hm : m ≤ N) :
    exactSum c (histAfter N A (k + 1)) m = convSum c A k m := by
  induction m with
  | zero => rfl
  | succ m ih =>
    simp only [exactSum, convSum]
    rw [ih (by omega), getD_histAfter N A k m (by omega)]

theorem getD_of_drop_eq_cons {A : List Int} {j : Nat} {s : Int} {rest : List Int}
    (h : A.drop j = s :: rest) : A.getD j 0 = s ∧ A.drop (j + 1) = rest := by
  have h1 : A.drop (j + 1) = rest := by
    rw [← List.drop_drop 1 j A, h]; rfl
  refine ⟨?_, h1⟩
  have h2 : (A.drop j)[0]? = some s := by rw [h]; simp
  rw [List.getElem?_drop] at h2
  rw [List.getD_eq_getElem?_getD]
  simpa using congrArg (fun o => Option.getD o 0) h2

/-- The value returned by call `j + i` of a run from the zero history. -/
theorem runFir_getElem? (N : Nat) (c : List Int) (g : Int) (hN : 1 ≤ N) (A : List Int) :
    ∀ (rest : List Int) (j : Nat), A.drop j = rest → ∀ i, i < rest.length →
      (runFir (fir N c g) (histAfter N A j) rest).1[i]? =
        some (wrap16 (truncDiv (macLoop c (histAfter N A (j + i + 1)) N) g)) := by
  intro rest
  induction rest with
  | nil => intro j _ i hi; simp at hi
  | cons s rest ih =>
    intro j hj i hi
    obtain ⟨hs, hrest⟩ := getD_of_drop_eq_cons hj
    have hstep : (fir N c g (histAfter N A j) s).2 = histAfter N A (j + 1) := by
      rw [← hs]; exact firHistory_histAfter N A j hN
    rcases i with _ | i
    · simp only [runFir, List.getElem?_cons_zero, fir, firSum]
      rw [← hs, firHistory_histAfter N A j hN]
    · simp only [runFir, List.getElem?_cons_succ]
      rw [hstep, ih (j + 1) hrest i (by simpa using hi)]
      congr 6; omega

/-- The accumulator at call `j + i` of a run from the zero history. -/
theorem runSums_getElem? (N : Nat) (c : List Int) (hN : 1 ≤ N) (A : List Int) :
    ∀ (rest : List Int) (j : Nat), A.drop j = rest → ∀ i, i < rest.length →
      (runSums N c (histAfter N A j) rest)[i]? =
        some (macLoop c (histAfter N A (j + i + 1)) N) := by
  intro rest
  induction rest with
  | nil => intro j _ i hi; simp at hi
  | cons s rest ih =>
    intro j hj i hi
    obtain ⟨hs, hrest⟩ := getD_of_drop_eq_cons hj
    rcases i with _ | i
    · simp only [runSums, List.getElem?_cons_zero, firSum]
      rw [← hs, firHistory_histAfter N A j hN]
    · simp only [runSums, List.getElem?_cons_succ]
      rw [← hs, firHistory_histAfter N A j hN, ih (j + 1) hrest i (by simpa using hi)]
      congr 3; omega

theorem runFir_zero_getElem? (N : Nat) (c : List Int) (g : Int) (hN : 1 ≤ N) (A : List Int)
    (k : Nat) (hk : k < A.length) :
    (runFir (fir N c g) (zeroHistory N) A).1[k]? =
      some (wrap16 (truncDiv (wrap32 (convSum c A k N)) g)) := by
  rw [← histAfter_zero N A, runFir_getElem? N c g hN A A 0 rfl k hk, macLoop_eq_wrap32,
    Nat.zero_add, exactSum_histAfter c A N k N le_rfl]

theorem runSums_zero_getElem? (N : Nat) (c : List Int) (hN : 1 ≤ N) (A : List Int)
    (k : Nat) (hk : k < A.length) :
    (runSums N c (zeroHistory N) A)[k]? = some (wrap32 (convSum c A k N)) := by
  rw [← histAfter_zero N A, runSums_getElem? N c hN A A 0 rfl k hk, macLoop_eq_wrap32,
    Nat.zero_add, exactSum_histAfter c A N k N le_rfl]

theorem Variant.fir_eq (v : Variant) : v.fir = WinFilter.fir 31 v.FIRCoef v.DCgain := by
  cases v <;> rfl

theorem Variant.Ntap_eq (v : Variant) : v.Ntap = 31 := by
  cases v <;> rfl

end WinFilter

/-! ## Bounds on the accumulation -/

namespace WinFilter

theorem absSum_nonneg (c : List Int) (m : Nat) : 0 ≤ absSum c m := by
  induction m with
  | zero => exact le_rfl
  | succ m ih => simp only [absSum]; have := abs_nonneg (c.getD m 0); omega

theorem absSum_mono (c : List Int) {m n : Nat} (h : m ≤ n) : absSum c m ≤ absSum c n := by
  induction n with
  | zero => have : m = 0 := by omega
            subst this; exact le_rfl
  | succ n ih =>
    rcases Nat.lt_or_ge m (n + 1) with h1 | h1
    · have := ih (by omega)
      simp only [absSum]; have := abs_nonneg (c.getD n 0); omega
    · have : m = n + 1 := by omega
      subst this; exact le_rfl

/-- A sample magnitude bound `B` bounds every partial sum by `B * Σ |FIRCoef[n]|`. -/
theorem abs_exactSum_le (c x : List Int) (B : Int) (hx : ∀ n, |x.getD n 0| ≤ B) (m : Nat) :
    |exactSum c x m| ≤ B * absSum c m := by
  induction m with
  | zero => simp [exactSum, absSum]
  | succ m ih =>
    simp only [exactSum, absSum]
    have h1 : |c.getD m 0 * x.getD m 0| ≤ B * |c.getD m 0| := by
      rw [abs_mul, mul_comm]
      exact mul_le_mul_of_nonneg_right (hx m) (abs_nonneg _)
    have h2 := abs_add (exactSum c x m) (c.getD m 0 * x.getD m 0)
    rw [mul_add]; omega

theorem abs_getD_le (L : List Int) (B : Int) (hB : 0 ≤ B) (hL : ∀ a ∈ L, |a| ≤ B) (n : Nat) :
    |L.getD n 0| ≤ B := by
  rw [List.getD_eq_getElem?_getD]
  by_cases h : n < L.length
  · rw [List.getElem?_eq_getElem h]
    exact hL _ (List.getElem_mem h)
  · rw [List.getElem?_eq_none (by omega)]
    simpa using hB

theorem abs_getD_firHistory_le (x : List Int) (s B : Int) (hB : 0 ≤ B) (hlen : x.length = 31)
    (hx : ∀ a ∈ x, |a| ≤ B) (hs : |s| ≤ B) (n : Nat) : |(firHistory 31 x s).getD n 0| ≤ B := by
  rw [firHistory_eq 31 x s (by decide) hlen]
  apply abs_getD_le _ B hB
  intro a ha
  rcases List.mem_cons.mp ha with h | h
  · rw [h]; exact hs
  · exact hx a (List.mem_of_mem_take h)

theorem isInt32_of_abs_le {v : Int} (h : |v| ≤ 2147483647) : isInt32 v := by
  have := abs_le.mp h
  unfold isInt32; omega

theorem macLoop_of_no_overflow (c x : List Int) (m : Nat) (h : isInt32 (exactSum c x m)) :
    macLoop c x m = exactSum c x m := by
  rw [macLoop_eq_wrap32, wrap32_of_isInt32 h]

theorem Variant.safeMagnitude_mul_absSum (v : Variant) :
    0 ≤ v.safeMagnitude ∧ v.safeMagnitude * absSum v.FIRCoef 31 ≤ 2147483647 := by
  cases v <;> decide

theorem isInt32_exactSum_of_safeMagnitude (v : Variant) (x : List Int) (hx : ∀ n, |x.getD n 0| ≤ v.safeMagnitude)
    (m : Nat) (hm : m ≤ 31) : isInt32 (exactSum v.FIRCoef x m) := by
  apply isInt32_of_abs_le
  have h1 := abs_exactSum_le v.FIRCoef x v.safeMagnitude hx m
  have h2 := absSum_mono v.FIRCoef hm
  have h3 := v.safeMagnitude_mul_absSum
  have h4 := mul_le_mul_of_nonneg_left h2 h3.1
  omega

end WinFilter

/-! ## Claims C1 and C2: the convolution and the range of the accumulator -/

namespace WinFilter

theorem getD_eq_zero_of_all_zero (c : List Int) (hc : ∀ a ∈ c, a = 0) (n : Nat) :
    c.getD n 0 = 0 := by
  rw [List.getD_eq_getElem?_getD]
  by_cases h : n < c.length
  · rw [List.getElem?_eq_getElem h]
    exact hc _ (List.getElem_mem h)
  · rw [List.getElem?_eq_none (by omega)]; rfl

theorem exactSum_eq_zero_of_all_zero (c x : List Int) (hc : ∀ a ∈ c, a = 0) (m : Nat) :
    exactSum c x m = 0 := by
  induction m with
  | zero => rfl
  | succ m ih => rw [exactSum, ih, getD_eq_zero_of_all_zero c hc]; simp

theorem convSum_eq_zero_of_all_zero (c A : List Int) (hc : ∀ a ∈ c, a = 0) (k m : Nat) :
    convSum c A k m = 0 := by
  induction m with
  | zero => rfl
  | succ m ih => rw [convSum, ih, getD_eq_zero_of_all_zero c hc]; simp

theorem order6Low_all_zero : ∀ a ∈ Variant.order6Low.FIRCoef, a = 0 := by decide

/-- The narrowing of the quotient to `__int16` loses nothing in any of the
three files: the quotient of a 32-bit value by `2^18` has at most 14 bits, and
the accumulator of the all-zero table is `0`. -/
theorem Variant.wrap16_truncDiv (v : Variant) (x : List Int) (m : Nat) :
    wrap16 (truncDiv (macLoop v.FIRCoef x m) v.DCgain) =
      truncDiv (macLoop v.FIRCoef x m) v.DCgain := by
  apply wrap16_of_isInt16
  cases v
  · exact isInt16_truncDiv_262144 (isInt32_macLoop _ _ _)
  · have h : macLoop Variant.order6Low.FIRCoef x m = 0 := by
      rw [macLoop_eq_wrap32, exactSum_eq_zero_of_all_zero _ _ order6Low_all_zero]; rfl
    rw [h]; decide
  · exact isInt16_truncDiv_262144 (isInt32_macLoop _ _ _)

theorem Variant.wrap16_truncDiv_wrap32 (v : Variant) (A : List Int) (k : Nat) :
    wrap16 (truncDiv (wrap32 (convSum v.FIRCoef A k 31)) v.DCgain) =
      truncDiv (wrap32 (convSum v.FIRCoef A k 31)) v.DCgain := by
  have h := v.wrap16_truncDiv (histAfter 31 A (k + 1)) 31
  rwa [macLoop_eq_wrap32, exactSum_histAfter _ _ 31 k 31 le_rfl] at h

/-- The value returned by call `k` of a run of any of the three filters from
the zero history, with the machine narrowing of the accumulator made explicit. -/
theorem Variant.runFir_zero (v : Variant) (A : List Int) (k : Nat) (hk : k < A.length) :
    (runFir v.fir (zeroHistory 31) A).1[k]? =
      some (truncDiv (wrap32 (convSum v.FIRCoef A k 31)) v.DCgain) := by
  rw [v.fir_eq, runFir_zero_getElem? 31 _ _ (by decide) A k hk, v.wrap16_truncDiv_wrap32]

set_option maxRecDepth 100000 in
/-- C1, counterexample.  The 3rd-order filter fed 31 full-scale samples `32767`
from the zero history: the exact sum at call 30 is `350470 * 32767`, whose
quotient by `DCgain` is `43807`, a value no `__int16` can hold; the routine
returns `-5344`. -/
theorem fir_convolution_fails_at_full_scale :
    (∀ a ∈ List.replicate 31 (32767 : Int), isInt16 a) ∧
    (runFir Variant.order3Low.fir (zeroHistory 31) (List.replicate 31 32767)).1[30]? =
      some (-5344) ∧
    truncDiv (convSum Variant.order3Low.FIRCoef (List.replicate 31 32767) 30 31)
      Variant.order3Low.DCgain = 43807 ∧
    ¬ isInt16 (truncDiv (convSum Variant.order3Low.FIRCoef (List.replicate 31 32767) 30 31)
      Variant.order3Low.DCgain) ∧
    (runFir Variant.order3Low.fir (zeroHistory 31) (List.replicate 31 32767)).1[30]? ≠
      some (truncDiv (convSum Variant.order3Low.FIRCoef (List.replicate 31 32767) 30 31)
        Variant.order3Low.DCgain) := by
  refine ⟨?_, ?_, ?_, ?_, ?_⟩
  · intro a ha; rw [List.eq_of_mem_replicate ha]; decide
  · decide
  · decide
  · decide
  · decide

/-- C1 (amended).  For each of the three filters, started from the
zero-initialised history, and for every finite input stream: at every call `k`
at which no partial sum of the exact accumulation
`Σ_{n<m} FIRCoef[n] * sample[k-n]` (`m ≤ 31`) leaves the signed 32-bit range,
the value returned by the `k`-th call equals the quotient, truncated toward
zero, of the exact sum `Σ_{n=0}^{30} FIRCoef[n] * sample[k-n]` by `DCgain`,
where `sample[j]` is `0` for `j < 0`. -/
theorem fir_convolution_of_no_overflow (v : Variant) (A : List Int) (k : Nat)
    (hk : k < A.length)
    (hno : ∀ m, m ≤ 31 → isInt32 (convSum v.FIRCoef A k m)) :
    (runFir v.fir (zeroHistory 31) A).1[k]? =
      some (truncDiv (convSum v.FIRCoef A k 31) v.DCgain) := by
  rw [v.runFir_zero A k hk, wrap32_of_isInt32 (hno 31 le_rfl)]

set_option maxRecDepth 100000 in
/-- C1 (amended), witness: the 4.05-5.95 MHz filter on a four-sample stream, at
call 3. -/
theorem fir_convolution_of_no_overflow_witness :
    (runFir Variant.order6High.fir (zeroHistory 31) [1000, -2000, 32767, -32768]).1[3]? =
      some (truncDiv (convSum Variant.order6High.FIRCoef [1000, -2000, 32767, -32768] 3 31)
        Variant.order6High.DCgain) :=
  fir_convolution_of_no_overflow Variant.order6High [1000, -2000, 32767, -32768] 3
    (by decide) (by decide)

set_option maxRecDepth 100000 in
/-- C2, counterexample.  With the 3rd-order table, a history of 31 full-scale
samples and a full-scale new sample, the weighted sum is `11483850490`, outside
the signed 32-bit range; the accumulator `y` holds `-1401051398`. -/
theorem accumulator_overflows_at_full_scale :
    (List.replicate 31 (32767 : Int)).length = 31 ∧
    (∀ a ∈ List.replicate 31 (32767 : Int), isInt16 a) ∧ isInt16 32767 ∧
    exactSum Variant.order3Low.FIRCoef (firHistory 31 (List.replicate 31 32767) 32767) 31 =
      11483850490 ∧
    ¬ isInt32
      (exactSum Variant.order3Low.FIRCoef (firHistory 31 (List.replicate 31 32767) 32767) 31) ∧
    firSum 31 Variant.order3Low.FIRCoef (List.replicate 31 32767) 32767 = -1401051398 := by
  refine ⟨by decide, ?_, by decide, by decide, by decide, by decide⟩
  intro a ha; rw [List.eq_of_mem_replicate ha]; decide

set_option maxRecDepth 100000 in
/-- C2 (amended).  For each of the three tables, every 31-entry history and
every new sample whose magnitudes are all at most the table's safe magnitude
(6088 for the 3rd-order table, 6052 for the 4.05-5.95 MHz table, the whole
16-bit range for the all-zero table): the weighted sum
`Σ_{n=0}^{30} FIRCoef[n] * x[n]` and every partial sum of it lie in the signed
32-bit range, and the accumulator `y` holds the exact partial sum after every
iteration, so the accumulation does not overflow.  With full-scale 16-bit
samples the accumulation does leave the 32-bit range for each of the two
non-degenerate tables: for the 3rd-order table when the history and the new
sample are all `32767` (the sum is `11483850490`), for the 4.05-5.95 MHz table
when every sample is `32767` or `-32767` with the sign of its coefficient (the
sum is `11625403930`). -/
theorem accumulator_in_range_of_safeMagnitude (v : Variant) (x : List Int) (s : Int)
    (hlen : x.length = 31) (hx : ∀ a ∈ x, |a| ≤ v.safeMagnitude) (hs : |s| ≤ v.safeMagnitude)
    (m : Nat) (hm : m ≤ 31) :
    (isInt32 (exactSum v.FIRCoef (firHistory 31 x s) m) ∧
      macLoop v.FIRCoef (firHistory 31 x s) m = exactSum v.FIRCoef (firHistory 31 x s) m) ∧
    ((List.replicate 31 (32767 : Int)).length = 31 ∧
      (∀ a ∈ List.replicate 31 (32767 : Int), isInt16 a) ∧ isInt16 32767 ∧
      exactSum Variant.order3Low.FIRCoef (firHistory 31 (List.replicate 31 32767) 32767) 31 =
        11483850490 ∧
      ¬ isInt32 (exactSum Variant.order3Low.FIRCoef
        (firHistory 31 (List.replicate 31 32767) 32767) 31)) ∧
    (fullScaleMatched.length = 31 ∧ (∀ a ∈ fullScaleMatched, isInt16 a) ∧ isInt16 32767 ∧
      exactSum Variant.order6High.FIRCoef (firHistory 31 fullScaleMatched 32767) 31 =
        11625403930 ∧
      ¬ isInt32 (exactSum Variant.order6High.FIRCoef
        (firHistory 31 fullScaleMatched 32767) 31)) := by
  have h := isInt32_exactSum_of_safeMagnitude v (firHistory 31 x s)
    (abs_getD_firHistory_le x s _ v.safeMagnitude_mul_absSum.1 hlen hx hs) m hm
  refine ⟨⟨h, macLoop_of_no_overflow _ _ _ h⟩, ⟨by decide, ?_, by decide, by decide, by decide⟩,
    ⟨by decide, by decide, by decide, by decide, by decide⟩⟩
  intro a ha; rw [List.eq_of_mem_replicate ha]; decide

set_option maxRecDepth 100000 in
/-- C2 (amended), witness: the 3rd-order table with every sample at `-6088`. -/
theorem accumulator_in_range_of_safeMagnitude_witness :
    isInt32 (exactSum Variant.order3Low.FIRCoef
        (firHistory 31 (List.replicate 31 (-6088)) (-6088)) 31) ∧
      macLoop Variant.order3Low.FIRCoef (firHistory 31 (List.replicate 31 (-6088)) (-6088)) 31 =
        exactSum Variant.order3Low.FIRCoef
          (firHistory 31 (List.replicate 31 (-6088)) (-6088)) 31 :=
  (accumulator_in_range_of_safeMagnitude Variant.order3Low (List.replicate 31 (-6088)) (-6088)
    (by decide) (by intro a ha; rw [List.eq_of_mem_replicate ha]; decide) (by decide) 31
    (by decide)).1

end WinFilter

/-! ## Claims C3 and C4: the impulse response -/

namespace WinFilter

theorem getD_replicate_zero (m j : Nat) : (List.replicate m (0 : Int)).getD j 0 = 0 := by
  rw [List.getD_eq_getElem?_getD, List.getElem?_replicate]
  split <;> rfl

theorem sampleAt_impulse (s : Int) (m k n : Nat) :
    sampleAt (s :: List.replicate m 0) k n = if n = k then s else 0 := by
  unfold sampleAt
  by_cases h : n ≤ k
  · rw [if_pos h]
    by_cases h2 : n = k
    · subst h2; simp
    · rw [if_neg h2]
      obtain ⟨j, hj⟩ : ∃ j, k - n = j + 1 := ⟨k - n - 1, by omega⟩
      rw [hj, List.getD_cons_succ, getD_replicate_zero]
  · rw [if_neg h, if_neg (by omega)]

/-- The exact convolution sum of an impulse `s, 0, 0, ...` has the single
non-zero term `FIRCoef[k] * s`. -/
theorem convSum_impulse (c : List Int) (s : Int) (m k M : Nat) :
    convSum c (s :: List.replicate m 0) k M = if k < M then c.getD k 0 * s else 0 := by
  induction M with
  | zero => rfl
  | succ M ih =>
    rw [convSum, ih, sampleAt_impulse]
    by_cases h1 : k < M
    · rw [if_pos h1, if_neg (by omega), if_pos (by omega)]; simp
    · rw [if_neg h1]
      by_cases h2 : M = k
      · subst h2; rw [if_pos rfl, if_pos (by omega)]; simp
      · rw [if_neg h2, if_neg (by omega)]; simp

theorem Variant.isInt16_FIRCoef (v : Variant) (n : Nat) : |v.FIRCoef.getD n 0| ≤ 32768 := by
  apply abs_getD_le _ _ (by decide)
  cases v <;> decide

theorem isInt32_coef_mul_sample (c s : Int) (hc : |c| ≤ 32768) (hs : isInt16 s) :
    isInt32 (c * s) := by
  apply isInt32_of_abs_le
  have h1 : |s| ≤ 32768 := by
    unfold isInt16 at hs; exact abs_le.mpr ⟨by omega, by omega⟩
  have h2 : |c * s| ≤ 32768 * 32768 := by
    rw [abs_mul]; exact mul_le_mul hc h1 (abs_nonneg _) (by decide)
  omega

/-- The value returned at call `k` of an impulse run of any of the three
filters. -/
theorem Variant.runFir_impulse (v : Variant) (s : Int) (hs : isInt16 s) (m k : Nat)
    (hk : k ≤ m) :
    (runFir v.fir (zeroHistory 31) (s :: List.replicate m 0)).1[k]? =
      some (if k < 31 then truncDiv (v.FIRCoef.getD k 0 * s) v.DCgain else 0) := by
  rw [v.runFir_zero _ k (by simp; omega), convSum_impulse]
  by_cases h : k < 31
  · rw [if_pos h, if_pos h, wrap32_of_isInt32 (isInt32_coef_mul_sample _ _ (v.isInt16_FIRCoef k) hs)]
  · rw [if_neg h, if_neg h]
    have : wrap32 0 = 0 := by decide
    rw [this]; unfold truncDiv; rw [Int.zero_tdiv]

/-- C3.  The 3rd-order 0.05-1.95 MHz filter (`Ntap = 31`, `DCgain = 262144`)
started from the zero history and fed `1000` followed by `m` zeros: the call at
step 0 returns `-2` (which is `-565 * 1000 / 262144` truncated toward zero),
the call at each step `k` in `1..30` returns `FIRCoef[k] * 1000 / 262144`
truncated toward zero, and every call at step 31 or later returns `0`. -/
theorem order3_impulse_response_1000 (m k : Nat) (hk : k ≤ m) :
    (runFir Bw005to195Order3.fir (zeroHistory Bw005to195Order3.Ntap)
        (1000 :: List.replicate m 0)).1[k]? =
      some (if k = 0 then -2
        else if k ≤ 30 then
          truncDiv (Bw005to195Order3.FIRCoef.getD k 0 * 1000) Bw005to195Order3.DCgain
        else 0) ∧
    truncDiv (-565 * 1000) 262144 = -2 ∧
    Bw005to195Order3.FIRCoef.getD 0 0 = -565 := by
  refine ⟨?_, by decide, by decide⟩
  have h := Variant.order3Low.runFir_impulse 1000 (by decide) m k hk
  rw [show Variant.order3Low.fir = Bw005to195Order3.fir from rfl] at h
  rw [show Bw005to195Order3.Ntap = 31 from rfl, h]
  congr 1
  by_cases h0 : k = 0
  · subst h0; decide
  · rw [if_neg h0]
    by_cases h1 : k ≤ 30
    · rw [if_pos h1, if_pos (by omega)]; rfl
    · rw [if_neg h1, if_neg (by omega)]

set_option maxRecDepth 100000 in
/-- C3, witness: the whole response over 34 calls. -/
theorem order3_impulse_response_1000_witness :
    (runFir Bw005to195Order3.fir (zeroHistory Bw005to195Order3.Ntap)
        (1000 :: List.replicate 33 0)).1 =
      [-2, 0, 4, 8, 14, 20, 27, 35, 44, 53, 63, 73, 83, 92, 99, 102, 99, 92, 83, 73, 63, 53,
        44, 35, 27, 20, 14, 8, 4, 0, -2, 0, 0, 0] ∧
    (runFir Bw005to195Order3.fir (zeroHistory Bw005to195Order3.Ntap)
        (1000 :: List.replicate 33 0)).1[32]? =
      some (if 32 = 0 then -2
        else if 32 ≤ 30 then
          truncDiv (Bw005to195Order3.FIRCoef.getD 32 0 * 1000) Bw005to195Order3.DCgain
        else 0) :=
  ⟨by decide, (order3_impulse_response_1000 33 32 (by decide)).1⟩

/-- C4.  For each of the three filters and every 16-bit sample `s`, starting
from the zero history and feeding `s` followed by 30 zero samples, the call at
step `n` (`0 ≤ n ≤ 30`) returns `FIRCoef[n] * s / DCgain` truncated toward
zero; the first call returns `FIRCoef[0] * s / DCgain`, its history holding
the one real sample at position 0 and 30 zeros. -/
theorem impulse_response_scaled (v : Variant) (s : Int) (hs : isInt16 s) (n : Nat)
    (hn : n ≤ 30) :
    (runFir v.fir (zeroHistory v.Ntap) (s :: List.replicate 30 0)).1[n]? =
      some (truncDiv (v.FIRCoef.getD n 0 * s) v.DCgain) ∧
    v.fir (zeroHistory v.Ntap) s =
      (truncDiv (v.FIRCoef.getD 0 0 * s) v.DCgain, s :: List.replicate 30 0) := by
  rw [v.Ntap_eq]
  constructor
  · rw [v.runFir_impulse s hs 30 n hn, if_pos (by omega)]
  · have h := v.runFir_impulse s hs 0 0 le_rfl
    rw [if_pos (by decide)] at h
    simp only [List.replicate, runFir, List.getElem?_cons_zero, Option.some.injEq] at h
    have h2 : (v.fir (zeroHistory 31) s).2 = s :: List.replicate 30 0 := by
      rw [v.fir_eq, fir_snd, firHistory_eq 31 _ s (by decide) (by simp [zeroHistory])]
      rfl
    exact Prod.ext h h2

set_option maxRecDepth 100000 in
/-- C4, witness: the 4.05-5.95 MHz filter, sample `-32768`, step 9. -/
theorem impulse_response_scaled_witness :
    (runFir Variant.order6High.fir (zeroHistory Variant.order6High.Ntap)
        (-32768 :: List.replicate 30 0)).1[9]? = some 2303 ∧
    truncDiv (Variant.order6High.FIRCoef.getD 9 0 * -32768) Variant.order6High.DCgain = 2303 :=
  ⟨((impulse_response_scaled Variant.order6High (-32768) (by decide) 9 (by decide)).1).trans
      (by decide), by decide⟩

end WinFilter

/-! ## Claims C5, C6 and C9: the divide, the all-zero table, the newest sample -/

namespace WinFilter

theorem Variant.DCgain_pos (v : Variant) : 0 < v.DCgain := by
  cases v <;> decide

theorem Variant.fir_fst (v : Variant) (x : List Int) (s : Int) :
    (v.fir x s).1 = truncDiv (firSum 31 v.FIRCoef x s) v.DCgain := by
  rw [v.fir_eq]
  exact v.wrap16_truncDiv (firHistory 31 x s) 31

/-- C5.  The final divide of `fir` truncates toward zero.  For every sum `y`
and every divisor `g > 0` the quotient `q = y / g` leaves a remainder
`r = y - q * g` with `|r| < g` that is `0` or has the sign of `y`; and in each
of the three files, for every history and new sample, the returned value `q`
and the accumulator `y` of that call satisfy the same with `g = DCgain`, the
narrowing of the quotient to 16 bits changing nothing. -/
theorem fir_divide_truncates_toward_zero (v : Variant) (x : List Int) (s : Int) (y g : Int)
    (hg : 0 < g) :
    (|y - truncDiv y g * g| < g ∧
      (y - truncDiv y g * g = 0 ∨ (0 < y - truncDiv y g * g ∧ 0 < y) ∨
        (y - truncDiv y g * g < 0 ∧ y < 0))) ∧
    (|firSum 31 v.FIRCoef x s - (v.fir x s).1 * v.DCgain| < v.DCgain ∧
      (firSum 31 v.FIRCoef x s - (v.fir x s).1 * v.DCgain = 0 ∨
        (0 < firSum 31 v.FIRCoef x s - (v.fir x s).1 * v.DCgain ∧
          0 < firSum 31 v.FIRCoef x s) ∨
        (firSum 31 v.FIRCoef x s - (v.fir x s).1 * v.DCgain < 0 ∧
          firSum 31 v.FIRCoef x s < 0))) := by
  refine ⟨truncDiv_remainder y g hg, ?_⟩
  rw [v.fir_fst]
  exact truncDiv_remainder _ _ v.DCgain_pos

set_option maxRecDepth 100000 in
/-- C5, witness: `-565000 / 262144` gives `-2` with remainder `-40712`, not `-3`;
it is the first call of the 3rd-order filter on the sample `1000`. -/
theorem fir_divide_truncates_toward_zero_witness :
    truncDiv (-565000) 262144 = -2 ∧
    firSum 31 Variant.order3Low.FIRCoef (zeroHistory 31) 1000 = -565000 ∧
    (Variant.order3Low.fir (zeroHistory 31) 1000).1 = -2 ∧
    |(-565000 : Int) - truncDiv (-565000) 262144 * 262144| < 262144 ∧
    |firSum 31 Variant.order3Low.FIRCoef (zeroHistory 31) 1000 -
        (Variant.order3Low.fir (zeroHistory 31) 1000).1 * Variant.order3Low.DCgain| <
      Variant.order3Low.DCgain :=
  ⟨by decide, by decide, by decide,
    (fir_divide_truncates_toward_zero Variant.order3Low (zeroHistory 31) 1000 (-565000) 262144
      (by decide)).1.1,
    (fir_divide_truncates_toward_zero Variant.order3Low (zeroHistory 31) 1000 (-565000) 262144
      (by decide)).2.1⟩

theorem fir_fst_eq_zero_of_all_zero (N : Nat) (c : List Int) (g : Int) (x : List Int) (s : Int)
    (hc : ∀ a ∈ c, a = 0) : (fir N c g x s).1 = 0 := by
  unfold fir firSum
  rw [macLoop_eq_wrap32, exactSum_eq_zero_of_all_zero c _ hc]
  have : wrap32 0 = 0 := by decide
  rw [this]; unfold truncDiv; rw [Int.zero_tdiv]; rfl

theorem runFir_eq_replicate_zero (f : List Int → Int → Int × List Int)
    (hf : ∀ x s, (f x s).1 = 0) (A : List Int) :
    ∀ x, (runFir f x A).1 = List.replicate A.length 0 := by
  induction A with
  | nil => intro x; rfl
  | cons s rest ih =>
    intro x
    simp only [runFir, List.length_cons, List.replicate_succ, hf, ih]

/-- C6.  For every tap count `N`, every coefficient set whose `N` coefficients
are all zero and every gain divisor `g ≥ 1`, the filter step returns `0` for
every new sample and every prior history; and the degenerate 0.05-1.95 MHz
6th-order routine (all-zero table, `DCgain = 1`) maps every finite input
sequence, from any history, to an all-zero output sequence of the same
length. -/
theorem all_zero_table_returns_zero (N : Nat) (c : List Int) (g : Int) (x : List Int) (s : Int)
    (A : List Int) (hc : c = List.replicate N 0) (hg : 1 ≤ g) :
    (fir N c g x s).1 = 0 ∧
    (runFir Bw005to195Order6.fir x A).1 = List.replicate A.length 0 ∧
    (runFir Bw005to195Order6.fir x A).1.length = A.length ∧
    Bw005to195Order6.FIRCoef = List.replicate Bw005to195Order6.Ntap 0 ∧
    Bw005to195Order6.DCgain = 1 := by
  have _ := hg
  have h6 : (runFir Bw005to195Order6.fir x A).1 = List.replicate A.length 0 :=
    runFir_eq_replicate_zero _
      (fun x s => fir_fst_eq_zero_of_all_zero _ _ _ x s order6Low_all_zero) A x
  refine ⟨?_, h6, ?_, by decide, rfl⟩
  · apply fir_fst_eq_zero_of_all_zero
    intro a ha
    rw [hc] at ha
    exact List.eq_of_mem_replicate ha
  · rw [h6, List.length_replicate]

set_option maxRecDepth 100000 in
/-- C6, witness: a 4-tap all-zero table with divisor 7 on a non-zero history,
and the degenerate routine on a three-sample stream. -/
theorem all_zero_table_returns_zero_witness :
    (fir 4 [0, 0, 0, 0] 7 [5, -6, 7, 8] 32767).1 = 0 ∧
    (runFir Bw005to195Order6.fir [5, -6, 7, 8] [1, -32768, 32767]).1 = [0, 0, 0] :=
  ⟨(all_zero_table_returns_zero 4 [0, 0, 0, 0] 7 [5, -6, 7, 8] 32767 [1, -32768, 32767]
      (by decide) (by decide)).1,
    (all_zero_table_returns_zero 4 [0, 0, 0, 0] 7 [5, -6, 7, 8] 32767 [1, -32768, 32767]
      (by decide) (by decide)).2.1⟩

/-- C9.  After every call `fir(s)` of any of the three routines, from any prior
contents of the 31-entry history, the history entry `x[0]` equals `s`. -/
theorem newest_sample_at_front (v : Variant) (x : List Int) (s : Int)
    (hlen : x.length = v.Ntap) : (v.fir x s).2[0]? = some s := by
  rw [v.Ntap_eq] at hlen
  rw [v.fir_eq]
  rw [fir_snd, firHistory_eq 31 x s (by decide) hlen]
  exact List.getElem?_cons_zero

set_option maxRecDepth 100000 in
/-- C9, witness: the 3rd-order routine called with `-7` on a full-scale history. -/
theorem newest_sample_at_front_witness :
    (Variant.order3Low.fir (List.replicate 31 32767) (-7)).2[0]? = some (-7) :=
  newest_sample_at_front Variant.order3Low (List.replicate 31 32767) (-7) (by decide)

end WinFilter

/-! ## Claim C7: linearity -/

namespace WinFilter

theorem getD_combine (c : Int) (A B : List Int) (h : A.length = B.length) (j : Nat) :
    (combine c A B).getD j 0 = c * A.getD j 0 + B.getD j 0 := by
  unfold combine
  simp only [List.getD_eq_getElem?_getD, List.getElem?_zipWith]
  by_cases hj : j < A.length
  · rw [List.getElem?_eq_getElem hj, List.getElem?_eq_getElem (h ▸ hj)]; rfl
  · rw [List.getElem?_eq_none (by omega), List.getElem?_eq_none (l := B) (by omega)]; simp

theorem sampleAt_combine (c : Int) (A B : List Int) (h : A.length = B.length) (k n : Nat) :
    sampleAt (combine c A B) k n = c * sampleAt A k n + sampleAt B k n := by
  unfold sampleAt
  by_cases hn : n ≤ k
  · simp only [if_pos hn, getD_combine c A B h]
  · simp [if_neg hn]

/-- The exact accumulation is linear in the input stream. -/
theorem convSum_combine (t : List Int) (c : Int) (A B : List Int) (h : A.length = B.length)
    (k m : Nat) :
    convSum t (combine c A B) k m = c * convSum t A k m + convSum t B k m := by
  induction m with
  | zero => simp [convSum]
  | succ m ih => simp only [convSum, ih, sampleAt_combine c A B h]; ring

theorem length_combine (c : Int) (A B : List Int) (h : A.length = B.length) :
    (combine c A B).length = A.length := by
  simp [combine, h]

/-- The error of the truncating divide on a linear combination. -/
theorem truncDiv_combine_bound (g : Int) (hg : 0 < g) (c yA yB : Int) :
    |truncDiv (c * yA + yB) g - (c * truncDiv yA g + truncDiv yB g)| ≤ |c| + 1 := by
  have hA := (truncDiv_remainder yA g hg).1
  have hB := (truncDiv_remainder yB g hg).1
  have hC := (truncDiv_remainder (c * yA + yB) g hg).1
  set qA := truncDiv yA g
  set qB := truncDiv yB g
  set qC := truncDiv (c * yA + yB) g
  set rA := yA - qA * g with hrA
  set rB := yB - qB * g with hrB
  set rC := c * yA + yB - qC * g with hrC
  have key : (qC - (c * qA + qB)) * g = c * rA + rB - rC := by
    rw [hrA, hrB, hrC]; ring
  have h1 : |(qC - (c * qA + qB)) * g| ≤ |c| * (g - 1) + (g - 1) + (g - 1) := by
    rw [key]
    have t1 : |c * rA + rB - rC| ≤ |c * rA + rB| + |rC| := abs_sub _ _
    have t2 : |c * rA + rB| ≤ |c * rA| + |rB| := abs_add _ _
    have t3 : |c * rA| ≤ |c| * (g - 1) := by
      rw [abs_mul]; exact mul_le_mul_of_nonneg_left (by omega) (abs_nonneg c)
    omega
  rw [abs_mul, abs_of_pos hg] at h1
  have h2 : |qC - (c * qA + qB)| * g < (|c| + 2) * g := by
    have : (|c| + 2) * g = |c| * (g - 1) + (g - 1) + (g - 1) + (|c| + 2) := by ring
    have := abs_nonneg c
    omega
  have h3 := lt_of_mul_lt_mul_right h2 hg.le
  omega

theorem Variant.runSums_zero (v : Variant) (S : List Int) (i : Nat) (hi : i < S.length)
    (hno : NoOverflow v.FIRCoef S) :
    (runSums 31 v.FIRCoef (zeroHistory 31) S).getD i 0 = convSum v.FIRCoef S i 31 := by
  rw [List.getD_eq_getElem?_getD, runSums_zero_getElem? 31 _ (by decide) S i hi,
    wrap32_of_isInt32 (hno i hi 31 le_rfl)]
  rfl

theorem Variant.runFir_zero_of_noOverflow (v : Variant) (S : List Int) (i : Nat)
    (hi : i < S.length) (hno : NoOverflow v.FIRCoef S) :
    (runFir v.fir (zeroHistory 31) S).1.getD i 0 =
      truncDiv (convSum v.FIRCoef S i 31) v.DCgain := by
  rw [List.getD_eq_getElem?_getD, v.runFir_zero S i hi, wrap32_of_isInt32 (hno i hi 31 le_rfl)]
  rfl

/-- C7.  Linearity.  For each of the three filters, every two input streams `A`
and `B` of equal length and every integer `c` such that each `c * A[i] + B[i]`
fits the 16-bit sample width and no accumulator overflow occurs in the runs on
`A`, on `B` and on `c * A + B`: running the filter from the zero history on the
stream `c * A[i] + B[i]` yields at every step `i` an accumulated sum exactly
equal to `c * sum_A[i] + sum_B[i]`, and a returned value that differs from
`c * fir(A)[i] + fir(B)[i]` by at most `|c| + 1`. -/
theorem fir_linear (v : Variant) (A B : List Int) (c : Int) (i : Nat)
    (hlen : A.length = B.length)
    (_hA : ∀ a ∈ A, isInt16 a) (_hB : ∀ b ∈ B, isInt16 b)
    (_hC : ∀ e ∈ combine c A B, isInt16 e)
    (hnoA : NoOverflow v.FIRCoef A) (hnoB : NoOverflow v.FIRCoef B)
    (hnoC : NoOverflow v.FIRCoef (combine c A B)) (hi : i < A.length) :
    (runSums 31 v.FIRCoef (zeroHistory 31) (combine c A B)).getD i 0 =
      c * (runSums 31 v.FIRCoef (zeroHistory 31) A).getD i 0 +
        (runSums 31 v.FIRCoef (zeroHistory 31) B).getD i 0 ∧
    |(runFir v.fir (zeroHistory 31) (combine c A B)).1.getD i 0 -
        (c * (runFir v.fir (zeroHistory 31) A).1.getD i 0 +
          (runFir v.fir (zeroHistory 31) B).1.getD i 0)| ≤ |c| + 1 := by
  have hiC : i < (combine c A B).length := by rw [length_combine c A B hlen]; exact hi
  have hiB : i < B.length := hlen ▸ hi
  rw [v.runSums_zero _ i hiC hnoC, v.runSums_zero A i hi hnoA, v.runSums_zero B i hiB hnoB,
    v.runFir_zero_of_noOverflow _ i hiC hnoC, v.runFir_zero_of_noOverflow A i hi hnoA,
    v.runFir_zero_of_noOverflow B i hiB hnoB, convSum_combine _ c A B hlen]
  exact ⟨rfl, truncDiv_combine_bound _ v.DCgain_pos _ _ _⟩

set_option maxRecDepth 100000 in
/-- C7, witness: the 3rd-order filter, `A = [1000, -2000, 300]`,
`B = [5, 7, -9]`, `c = 3`, at step 2. -/
theorem fir_linear_witness :
    (runSums 31 Variant.order3Low.FIRCoef (zeroHistory 31)
        (combine 3 [1000, -2000, 300] [5, 7, -9])).getD 2 0 =
      3 * (runSums 31 Variant.order3Low.FIRCoef (zeroHistory 31) [1000, -2000, 300]).getD 2 0 +
        (runSums 31 Variant.order3Low.FIRCoef (zeroHistory 31) [5, 7, -9]).getD 2 0 ∧
    |(runFir Variant.order3Low.fir (zeroHistory 31)
          (combine 3 [1000, -2000, 300] [5, 7, -9])).1.getD 2 0 -
        (3 * (runFir Variant.order3Low.fir (zeroHistory 31) [1000, -2000, 300]).1.getD 2 0 +
          (runFir Variant.order3Low.fir (zeroHistory 31) [5, 7, -9]).1.getD 2 0)| ≤ |3| + 1 :=
  fir_linear Variant.order3Low [1000, -2000, 300] [5, 7, -9] 3 2 (by decide) (by decide)
    (by decide) (by decide) (by decide) (by decide) (by decide) (by decide)

end WinFilter

/-! ## Claim C8: totality -/

namespace WinFilter

theorem readAt_of_lt (a : List Int) (n : Nat) (h : n < a.length) :
    readAt a n = .ok (a.getD n 0) := by
  unfold readAt
  rw [List.getD_eq_getElem?_getD, List.getElem?_eq_getElem h]
  rfl

theorem writeAt_of_lt (a : List Int) (n : Nat) (v : Int) (h : n < a.length) :
    writeAt a n v = .ok (a.set n v) := by
  unfold writeAt
  rw [if_pos h]

/-- With enough fuel the checked shift loop exits without error, in the state
computed by `shiftLoop`. -/
theorem shiftLoopChecked_eq (n : Nat) :
    ∀ (fuel : Nat) (x : List Int), n < x.length → n ≤ fuel →
      shiftLoopChecked fuel n x = .ok (shiftLoop n x) := by
  induction n with
  | zero =>
    intro fuel x _ _
    cases fuel <;> rfl
  | succ n ih =>
    intro fuel x hx hf
    obtain ⟨f, rfl⟩ : ∃ f, fuel = f + 1 := ⟨fuel - 1, by omega⟩
    simp only [shiftLoopChecked, shiftLoop]
    rw [readAt_of_lt x n (by omega)]
    simp only
    rw [writeAt_of_lt x (n + 1) _ hx]
    exact ih f _ (by simp; omega) (by omega)

/-- With enough fuel the checked accumulation loop exits without error, with
the accumulator computed by `macLoop`. -/
theorem macLoopChecked_eq (N : Nat) (c x : List Int) (hc : N ≤ c.length) (hx : N ≤ x.length)
    (fuel : Nat) :
    ∀ n, n ≤ N → N - n ≤ fuel →
      macLoopChecked N c x fuel n (macLoop c x n) = .ok (macLoop c x N) := by
  induction fuel with
  | zero =>
    intro n hn hf
    have : n = N := by omega
    subst this
    simp [macLoopChecked]
  | succ fuel ih =>
    intro n hn hf
    by_cases h : n < N
    · simp only [macLoopChecked, if_pos h]
      rw [readAt_of_lt c n (by omega)]
      simp only
      rw [readAt_of_lt x n (by omega)]
      exact ih (n + 1) (by omega) (by omega)
    · have : n = N := by omega
      subst this
      simp [macLoopChecked]

theorem firChecked_eq (fuel N : Nat) (c : List Int) (g : Int) (x : List Int) (s : Int)
    (hN : 1 ≤ N) (hc : c.length = N) (hx : x.length = N) (hg : g ≠ 0) (hf : N ≤ fuel) :
    firChecked fuel N c g x s = .ok (fir N c g x s) := by
  unfold firChecked
  rw [shiftLoopChecked_eq (N - 1) fuel x (by omega) (by omega)]
  simp only
  rw [writeAt_of_lt _ 0 s (by rw [length_shiftLoop]; omega)]
  simp only
  have h := macLoopChecked_eq N c ((shiftLoop (N - 1) x).set 0 s) (by omega)
    (by simp [length_shiftLoop]; omega) fuel 0 (by omega) (by omega)
  rw [show macLoop c ((shiftLoop (N - 1) x).set 0 s) 0 = 0 from rfl] at h
  rw [h]
  simp only [if_neg hg]
  rfl

/-- C8.  The routine `fir` is total and signals no error.  For each of the
three filters, every 31-entry history and every 16-bit new sample, the checked
execution of the step, with each loop allowed any number of iterations from 31
up, ends without error and returns the value and the new 31-entry history of
`fir`: both loops exit, every index used is within the 31-entry arrays, and the
divisor `DCgain` is not zero, being `262144 = 2^18` in the two non-degenerate
files and `1` in the degenerate file. -/
theorem fir_total (v : Variant) (x : List Int) (s : Int) (fuel : Nat)
    (hlen : x.length = 31) (_hs : isInt16 s) (hfuel : 31 ≤ fuel) :
    firChecked fuel v.Ntap v.FIRCoef v.DCgain x s = .ok (v.fir x s) ∧
    (v.fir x s).2.length = 31 ∧
    v.DCgain ≠ 0 ∧
    Variant.order3Low.DCgain = 2 ^ 18 ∧ Variant.order6High.DCgain = 2 ^ 18 ∧
    Variant.order6Low.DCgain = 1 ∧ (262144 : Int) = 2 ^ 18 := by
  have hc : v.FIRCoef.length = 31 := by cases v <;> rfl
  refine ⟨?_, ?_, v.DCgain_pos.ne.symm, by decide, by decide, by decide, by decide⟩
  · rw [v.Ntap_eq, v.fir_eq]
    exact firChecked_eq fuel 31 _ _ x s (by decide) hc hlen v.DCgain_pos.ne.symm hfuel
  · rw [v.fir_eq, fir_snd, length_firHistory, hlen]

set_option maxRecDepth 100000 in
/-- C8, witness: the 4.05-5.95 MHz routine on a full-scale history, with 31
iterations allowed. -/
theorem fir_total_witness :
    firChecked 31 Variant.order6High.Ntap Variant.order6High.FIRCoef Variant.order6High.DCgain
        (List.replicate 31 (-32768)) 32767 =
      .ok (Variant.order6High.fir (List.replicate 31 (-32768)) 32767) :=
  (fir_total Variant.order6High (List.replicate 31 (-32768)) 32767 31 (by decide) (by decide)
    (by decide)).1

/-! ## Claim C10: history isolation -/

theorem streamOf_cons (X : Variant) (c : Variant × Int) (l : List (Variant × Int)) :
    streamOf X (c :: l) = if c.1 = X then c.2 :: streamOf X l else streamOf X l := by
  unfold streamOf
  by_cases h : c.1 = X
  · simp [List.filter_cons, h]
  · simp [List.filter_cons, h]

theorem length_shiftLoopAt (base k : Nat) (mem : List Int) :
    (shiftLoopAt base k mem).length = mem.length := by
  induction k generalizing mem with
  | zero => rfl
  | succ k ih => simp [shiftLoopAt, ih]

/-- The cells of the memory after the shift loop on the array at `base`. -/
theorem getElem?_shiftLoopAt (base k : Nat) (mem : List Int) (hk : base + k < mem.length)
    (a : Nat) :
    (shiftLoopAt base k mem)[a]? =
      if base + 1 ≤ a ∧ a ≤ base + k then mem[a - 1]? else mem[a]? := by
  induction k generalizing mem with
  | zero =>
    have : ¬ (base + 1 ≤ a ∧ a ≤ base + 0) := by omega
    rw [if_neg this]; rfl
  | succ k ih =>
    simp only [shiftLoopAt]
    rw [ih _ (by simp; omega)]
    have hx : mem[base + k]? = some (mem.getD (base + k) 0) := by
      rw [List.getD_eq_getElem?_getD, List.getElem?_eq_getElem (by omega)]; rfl
    by_cases h1 : base + 1 ≤ a ∧ a ≤ base + k
    · have h2 : base + 1 ≤ a ∧ a ≤ base + (k + 1) := by omega
      rw [if_pos h1, if_pos h2, List.getElem?_set_ne (by omega)]
    · rw [if_neg h1]
      by_cases h3 : a = base + (k + 1)
      · subst h3
        rw [if_pos (by omega), List.getElem?_set_self (by omega),
          show base + (k + 1) - 1 = base + k by omega, hx]
      · rw [if_neg (by omega), List.getElem?_set_ne (by omega)]

theorem getElem?_region (mem : List Int) (base len n : Nat) :
    (region mem base len)[n]? = if n < len then mem[base + n]? else none := by
  unfold region
  rw [List.getElem?_take]
  by_cases h : n < len
  · rw [if_pos h, if_pos h, List.getElem?_drop]
  · rw [if_neg h, if_neg h]

theorem length_region (mem : List Int) (base len : Nat) (h : base + len ≤ mem.length) :
    (region mem base len).length = len := by
  unfold region
  rw [List.length_take, List.length_drop]
  omega

theorem getD_region (mem : List Int) (base len n : Nat) (hn : n < len) :
    (region mem base len).getD n 0 = mem.getD (base + n) 0 := by
  rw [List.getD_eq_getElem?_getD, List.getD_eq_getElem?_getD, getElem?_region, if_pos hn]

theorem length_firAt (base N : Nat) (c : List Int) (g : Int) (mem : List Int) (s : Int) :
    (firAt base N c g mem s).2.length = mem.length := by
  simp [firAt, length_shiftLoopAt]

/-- Frame of one call: a call of the routine whose array is at `base` changes
no memory cell outside that array.  This rests on the bounds of the source's
loops: the stores are to `x[n]` for `n` in `1..Ntap-1` and to `x[0]`. -/
theorem firAt_frame (base N : Nat) (c : List Int) (g : Int) (mem : List Int) (s : Int)
    (hN : 1 ≤ N) (hfit : base + N ≤ mem.length) (a : Nat) (ha : a < base ∨ base + N ≤ a) :
    (firAt base N c g mem s).2[a]? = mem[a]? := by
  unfold firAt
  simp only
  rw [List.getElem?_set_ne (by omega), getElem?_shiftLoopAt base (N - 1) mem (by omega),
    if_neg (by omega)]

/-- Within its own array a call does what the routine does on that array. -/
theorem region_firAt (base N : Nat) (c : List Int) (g : Int) (mem : List Int) (s : Int)
    (hN : 1 ≤ N) (hfit : base + N ≤ mem.length) :
    region (firAt base N c g mem s).2 base N = firHistory N (region mem base N) s := by
  rw [firHistory_eq N _ s hN (length_region mem base N hfit)]
  apply List.ext_getElem?
  intro n
  rw [getElem?_region]
  unfold firAt
  simp only
  rcases n with _ | n
  · rw [if_pos (by omega), Nat.add_zero,
      List.getElem?_set_self (by rw [length_shiftLoopAt]; omega)]
    exact List.getElem?_cons_zero.symm
  · rw [List.getElem?_cons_succ, List.getElem?_take, getElem?_region]
    by_cases h : n + 1 < N
    · rw [if_pos h, if_pos (by omega), if_pos (by omega), List.getElem?_set_ne (by omega),
        getElem?_shiftLoopAt base (N - 1) mem (by omega), if_pos (by omega)]
      congr 1
    · rw [if_neg h, if_neg (by omega)]

theorem macLoopAt_eq (base N : Nat) (c mem : List Int) (k : Nat) (hk : k ≤ N) :
    macLoopAt base c mem k = macLoop c (region mem base N) k := by
  induction k with
  | zero => rfl
  | succ k ih =>
    simp only [macLoopAt, macLoop]
    rw [ih (by omega), getD_region mem base N k (by omega)]

/-- The value returned by a call on the memory is the value the routine returns
on the contents of its own array. -/
theorem firAt_fst (base N : Nat) (c : List Int) (g : Int) (mem : List Int) (s : Int)
    (hN : 1 ≤ N) (hfit : base + N ≤ mem.length) :
    (firAt base N c g mem s).1 = (fir N c g (region mem base N) s).1 := by
  have h := region_firAt base N c g mem s hN hfit
  unfold firAt at h ⊢
  unfold fir firSum
  simp only at h ⊢
  rw [macLoopAt_eq base N c _ N le_rfl, h]

/-- A call leaves the contents of every array that does not overlap its own. -/
theorem region_firAt_of_disjoint (base N : Nat) (c : List Int) (g : Int) (mem : List Int)
    (s : Int) (hN : 1 ≤ N) (hfit : base + N ≤ mem.length) (b len : Nat)
    (hd : b + len ≤ base ∨ base + N ≤ b) :
    region (firAt base N c g mem s).2 b len = region mem b len := by
  apply List.ext_getElem?
  intro n
  rw [getElem?_region, getElem?_region]
  by_cases h : n < len
  · rw [if_pos h, if_pos h, firAt_frame base N c g mem s hN hfit (b + n) (by omega)]
  · rw [if_neg h, if_neg h]

theorem Variant.firAt_eq (v : Variant) (base : Nat) :
    v.firAt base = WinFilter.firAt base 31 v.FIRCoef v.DCgain := by
  cases v <;> rfl

/-- The results and the final array of one routine in an interleaved call
sequence on a shared memory are those of that routine run alone on its own
samples. -/
theorem runCallsAt_streamOf (bases : Variant → Nat)
    (hdisj : ∀ v w, v ≠ w → bases v + 31 ≤ bases w ∨ bases w + 31 ≤ bases v)
    (X : Variant) (calls : List (Variant × Int)) :
    ∀ mem : List Int, (∀ v, bases v + 31 ≤ mem.length) →
      streamOf X (runCallsAt bases mem calls).1 =
        (runFir X.fir (region mem (bases X) 31) (streamOf X calls)).1 ∧
      region (runCallsAt bases mem calls).2 (bases X) 31 =
        (runFir X.fir (region mem (bases X) 31) (streamOf X calls)).2 := by
  induction calls with
  | nil => intro mem _; exact ⟨rfl, rfl⟩
  | cons c rest ih =>
    intro mem hfit
    have hlen : (c.1.firAt (bases c.1) mem c.2).2.length = mem.length := by
      rw [c.1.firAt_eq]; exact length_firAt _ _ _ _ _ _
    have h := ih (c.1.firAt (bases c.1) mem c.2).2 (fun v => by rw [hlen]; exact hfit v)
    simp only [runCallsAt]
    rw [streamOf_cons, streamOf_cons]
    by_cases hc : c.1 = X
    · have hX : region (c.1.firAt (bases c.1) mem c.2).2 (bases X) 31 =
          (X.fir (region mem (bases X) 31) c.2).2 := by
        rw [hc, X.firAt_eq, X.fir_eq, fir_snd]
        exact region_firAt _ 31 _ _ mem c.2 (by decide) (hfit X)
      have h1 : (c.1.firAt (bases c.1) mem c.2).1 = (X.fir (region mem (bases X) 31) c.2).1 := by
        rw [hc, X.firAt_eq, X.fir_eq]
        exact firAt_fst _ 31 _ _ mem c.2 (by decide) (hfit X)
      rw [hX] at h
      simp only [if_pos hc, runFir, h1, h.1, h.2, and_self]
    · have hX : region (c.1.firAt (bases c.1) mem c.2).2 (bases X) 31 =
          region mem (bases X) 31 := by
        rw [c.1.firAt_eq]
        apply region_firAt_of_disjoint _ 31 _ _ mem c.2 (by decide) (hfit c.1)
        rcases hdisj c.1 X hc with h2 | h2
        · exact Or.inr h2
        · exact Or.inl h2
      rw [hX] at h
      simp only [if_neg hc, h.1, h.2, and_self]

/-- C10.  History isolation.  Two routines `X` and `Y` of one program, each
with its own static history array (three arrays of 31 cells in one memory, no
two overlapping): a call on `X` changes no memory cell outside the array of `X`,
so it leaves the history of `Y` unchanged, and vice versa; the value it returns
and the new contents of its array are those of `fir` on the contents of its own
array; and for every interleaving of calls, the results of `X` (and of `Y`),
and its final history, are identical to those obtained by running `X` (and
`Y`) alone on its own stream to completion. -/
theorem history_isolation (bases : Variant → Nat) (mem : List Int)
    (calls : List (Variant × Int)) (X Y : Variant) (s : Int) (hXY : X ≠ Y)
    (hfit : ∀ v, bases v + 31 ≤ mem.length)
    (hdisj : ∀ v w, v ≠ w → bases v + 31 ≤ bases w ∨ bases w + 31 ≤ bases v) :
    (∀ a, a < bases X ∨ bases X + 31 ≤ a → (X.firAt (bases X) mem s).2[a]? = mem[a]?) ∧
    region (X.firAt (bases X) mem s).2 (bases Y) 31 = region mem (bases Y) 31 ∧
    region (Y.firAt (bases Y) mem s).2 (bases X) 31 = region mem (bases X) 31 ∧
    X.firAt (bases X) mem s =
      ((X.fir (region mem (bases X) 31) s).1, (X.firAt (bases X) mem s).2) ∧
    region (X.firAt (bases X) mem s).2 (bases X) 31 = (X.fir (region mem (bases X) 31) s).2 ∧
    streamOf X (runCallsAt bases mem calls).1 =
      (runFir X.fir (region mem (bases X) 31) (streamOf X calls)).1 ∧
    streamOf Y (runCallsAt bases mem calls).1 =
      (runFir Y.fir (region mem (bases Y) 31) (streamOf Y calls)).1 ∧
    region (runCallsAt bases mem calls).2 (bases X) 31 =
      (runFir X.fir (region mem (bases X) 31) (streamOf X calls)).2 ∧
    region (runCallsAt bases mem calls).2 (bases Y) 31 =
      (runFir Y.fir (region mem (bases Y) 31) (streamOf Y calls)).2 := by
  have hX := runCallsAt_streamOf bases hdisj X calls mem hfit
  have hY := runCallsAt_streamOf bases hdisj Y calls mem hfit
  refine ⟨?_, ?_, ?_, ?_, ?_, hX.1, hY.1, hX.2, hY.2⟩
  · intro a ha
    rw [X.firAt_eq]
    exact firAt_frame _ 31 _ _ mem s (by decide) (hfit X) a ha
  · rw [X.firAt_eq]
    apply region_firAt_of_disjoint _ 31 _ _ mem s (by decide) (hfit X)
    rcases hdisj X Y hXY with h | h
    · exact Or.inr h
    · exact Or.inl h
  · rw [Y.firAt_eq]
    apply region_firAt_of_disjoint _ 31 _ _ mem s (by decide) (hfit Y)
    rcases hdisj X Y hXY with h | h
    · exact Or.inl h
    · exact Or.inr h
  · apply Prod.ext
    · rw [X.firAt_eq, X.fir_eq]
      exact firAt_fst _ 31 _ _ mem s (by decide) (hfit X)
    · rfl
  · rw [X.firAt_eq, X.fir_eq, fir_snd]
    exact region_firAt _ 31 _ _ mem s (by decide) (hfit X)

set_option maxRecDepth 100000 in
/-- C10, witness: a memory of 93 cells holding the three arrays one after the
other (3rd order at 0, degenerate at 31, 4.05-5.95 MHz at 62), all cells `7`;
the 3rd-order and the 4.05-5.95 MHz routines called in turn. -/
theorem history_isolation_witness :
    streamOf Variant.order3Low
        (runCallsAt (fun v => match v with
            | Variant.order3Low => 0 | Variant.order6Low => 31 | Variant.order6High => 62)
          (List.replicate 93 7)
          [(Variant.order3Low, 1000), (Variant.order6High, 500), (Variant.order6High, 20),
            (Variant.order3Low, -3000)]).1 =
      (runFir Variant.order3Low.fir (List.replicate 31 7) [1000, -3000]).1 ∧
    streamOf Variant.order6High
        (runCallsAt (fun v => match v with
            | Variant.order3Low => 0 | Variant.order6Low => 31 | Variant.order6High => 62)
          (List.replicate 93 7)
          [(Variant.order3Low, 1000), (Variant.order6High, 500), (Variant.order6High, 20),
            (Variant.order3Low, -3000)]).1 =
      (runFir Variant.order6High.fir (List.replicate 31 7) [500, 20]).1 :=
  ⟨((history_isolation (fun v => match v with
        | Variant.order3Low => 0 | Variant.order6Low => 31 | Variant.order6High => 62)
      (List.replicate 93 7)
      [(Variant.order3Low, 1000), (Variant.order6High, 500), (Variant.order6High, 20),
        (Variant.order3Low, -3000)] Variant.order3Low Variant.order6High 0 (by decide)
      (by intro v; cases v <;> decide)
      (by intro v w; cases v <;> cases w <;> decide)).2.2.2.2.2.1).trans (by decide),
    ((history_isolation (fun v => match v with
        | Variant.order3Low => 0 | Variant.order6Low => 31 | Variant.order6High => 62)
      (List.replicate 93 7)
      [(Variant.order3Low, 1000), (Variant.order6High, 500), (Variant.order6High, 20),
        (Variant.order3Low, -3000)] Variant.order3Low Variant.order6High 0 (by decide)
      (by intro v; cases v <;> decide)
      (by intro v w; cases v <;> cases w <;> decide)).2.2.2.2.2.2.1).trans (by decide)⟩

end WinFilter

/-! ## Claim C11: the three routines are one engine -/

namespace WinFilter

/-- The index loop of the accumulation is a left fold over the paired
coefficients and samples. -/
theorem macLoop_eq_foldl (c x : List Int) (k : Nat) (hc : k ≤ c.length) (hx : k ≤ x.length) :
    macLoop c x k =
      ((List.zip c x).take k).foldl (fun acc p => wrap32 (acc + p.1 * p.2)) 0 := by
  induction k with
  | zero => rfl
  | succ k ih =>
    have hz : (List.zip c x)[k]? = some (c.getD k 0, x.getD k 0) := by
      rw [List.getElem?_zip_eq_some]
      simp only [List.getD_eq_getElem?_getD]
      rw [List.getElem?_eq_getElem (show k < c.length by omega),
        List.getElem?_eq_getElem (show k < x.length by omega)]
      exact ⟨rfl, rfl⟩
    rw [List.take_succ, hz, List.foldl_append, ← ih (by omega) (by omega)]
    simp only [Option.toList, List.foldl_cons, List.foldl_nil, macLoop, wrap32_add_wrap32]

/-- The source body, for any tap count, table and divisor, computes what the
specification's `process` computes. -/
theorem fir_eq_process (N : Nat) (c : List Int) (g : Int) (x : List Int) (s : Int)
    (hN : 1 ≤ N) (hc : c.length = N) (hx : x.length = N) :
    fir N c g x s = Spec.process { coefficients := c, gain_divisor := g } x s := by
  have hh : firHistory N x s = s :: x.dropLast := by
    rw [firHistory_eq N x s hN hx, List.dropLast_eq_take, hx]
  have hl : (s :: x.dropLast).length = N := by
    rw [← hh, length_firHistory, hx]
  unfold fir firSum Spec.process
  simp only [hh]
  rw [macLoop_eq_foldl c _ N (by omega) (by omega),
    List.take_of_length_le (by rw [List.length_zip, hc, hl]; simp)]

/-- C11.  The three `fir` routines are one and the same streaming routine: each
is the shared source body instantiated with that file's `FIRCoef` table and
`DCgain`, and each equals the specification's single generic engine `process`,
parameterised by a coefficient sequence and a gain divisor, instantiated with
that file's table and `DCgain`, giving the same returned value and the same new
history for every 31-entry history and every new sample. -/
theorem three_routines_one_engine (v : Variant) (x : List Int) (s : Int)
    (hlen : x.length = 31) :
    v.fir x s = Spec.process v.coefficientSet x s ∧
    (v.fir x s).1 = (Spec.process v.coefficientSet x s).1 ∧
    (v.fir x s).2 = (Spec.process v.coefficientSet x s).2 ∧
    v.fir = fir v.Ntap v.FIRCoef v.DCgain := by
  have hc : v.FIRCoef.length = 31 := by cases v <;> rfl
  have h : v.fir x s = Spec.process v.coefficientSet x s := by
    rw [v.fir_eq]
    exact fir_eq_process 31 _ _ x s (by decide) hc hlen
  refine ⟨h, by rw [h], by rw [h], ?_⟩
  rw [v.Ntap_eq, v.fir_eq]

set_option maxRecDepth 100000 in
/-- C11, witness: the 3rd-order routine on a full-scale history, where the
accumulator wraps. -/
theorem three_routines_one_engine_witness :
    Variant.order3Low.fir (List.replicate 31 32767) 32767 =
      Spec.process Variant.order3Low.coefficientSet (List.replicate 31 32767) 32767 ∧
    (Spec.process Variant.order3Low.coefficientSet (List.replicate 31 32767) 32767).1 =
      -5344 :=
  ⟨(three_routines_one_engine Variant.order3Low (List.replicate 31 32767) 32767
      (by decide)).1, by decide⟩

/-! ## Claims C12, C13 and C14: symmetry, lengths, the state update -/

/-- C12.  In each of the three supplied tables the coefficients are symmetric:
`FIRCoef[n] = FIRCoef[30 - n]` for every `n` in `0..30`; the table read
backwards is the table. -/
theorem FIRCoef_symmetric (v : Variant) (n : Nat) (hn : n ≤ 30) :
    v.FIRCoef.getD n 0 = v.FIRCoef.getD (30 - n) 0 ∧ v.FIRCoef.reverse = v.FIRCoef := by
  constructor
  · revert n
    cases v <;> decide
  · cases v <;> decide

/-- C12, witness: entries 3 and 27 of the 4.05-5.95 MHz table are both `12797`. -/
theorem FIRCoef_symmetric_witness :
    Variant.order6High.FIRCoef.getD 3 0 = Variant.order6High.FIRCoef.getD (30 - 3) 0 ∧
    Variant.order6High.FIRCoef.getD 3 0 = 12797 :=
  ⟨(FIRCoef_symmetric Variant.order6High 3 (by decide)).1, by decide⟩

theorem length_runFir_snd (N : Nat) (c : List Int) (g : Int) (A : List Int) :
    ∀ x : List Int, (runFir (fir N c g) x A).2.length = x.length := by
  induction A with
  | nil => intro x; rfl
  | cons s rest ih =>
    intro x
    simp only [runFir]
    rw [ih, fir_snd, length_firHistory]

theorem length_runFir_fst (f : List Int → Int → Int × List Int) (A : List Int) :
    ∀ x : List Int, (runFir f x A).1.length = A.length := by
  induction A with
  | nil => intro x; rfl
  | cons s rest ih => intro x; simp only [runFir, List.length_cons, ih]

/-- C13.  Length invariant.  In each of the three filters the coefficient table
has exactly `Ntap = 31` entries and the history has exactly 31 entries, at the
start and likewise after every call: from a 31-entry history, after one call
and after every sequence of calls, the history again has 31 entries. -/
theorem length_invariant (v : Variant) (x : List Int) (s : Int) (A : List Int)
    (hlen : x.length = 31) :
    v.Ntap = 31 ∧ v.FIRCoef.length = v.Ntap ∧ (zeroHistory v.Ntap).length = v.Ntap ∧
    (v.fir x s).2.length = v.Ntap ∧
    (∀ j, (runFir v.fir x (A.take j)).2.length = v.Ntap) ∧
    (runFir v.fir x A).2.length = v.FIRCoef.length := by
  have hc : v.FIRCoef.length = 31 := by cases v <;> rfl
  rw [v.Ntap_eq, hc, v.fir_eq]
  refine ⟨rfl, rfl, by simp [zeroHistory], ?_, ?_, ?_⟩
  · rw [fir_snd, length_firHistory, hlen]
  · intro j; rw [length_runFir_snd, hlen]
  · rw [length_runFir_snd, hlen]

set_option maxRecDepth 100000 in
/-- C13, witness: the 3rd-order routine from the zero history after three
calls. -/
theorem length_invariant_witness :
    (runFir Variant.order3Low.fir (zeroHistory 31) [5, -6, 7]).2.length =
      Variant.order3Low.FIRCoef.length :=
  (length_invariant Variant.order3Low (zeroHistory 31) 0 [5, -6, 7] (by decide)).2.2.2.2.2

/-- C14.  State update of one call.  For every prior 31-entry history `h` and
new sample `s`, the in-place descending loop `for n = 30 down to 1:
x[n] = x[n-1]` followed by `x[0] = s` leaves the history equal to `s` followed
by the first 30 entries of `h` in their original order: new `x[0] = s`, new
`x[n] = h[n-1]` for every `n` in `1..30`; the oldest entry `h[30]` is discarded
and no entry is duplicated or smeared by the in-place copy. -/
theorem state_update (v : Variant) (h : List Int) (s : Int) (hlen : h.length = 31) :
    (v.fir h s).2 = (shiftLoop 30 h).set 0 s ∧
    (v.fir h s).2 = s :: h.take 30 ∧
    (v.fir h s).2 = s :: h.dropLast ∧
    (v.fir h s).2.getD 0 0 = s ∧
    ∀ n, 1 ≤ n → n ≤ 30 → (v.fir h s).2.getD n 0 = h.getD (n - 1) 0 := by
  have h1 : (v.fir h s).2 = s :: h.take 30 := by
    rw [v.fir_eq, fir_snd, firHistory_eq 31 h s (by decide) hlen]
  refine ⟨?_, h1, ?_, ?_, ?_⟩
  · rw [v.fir_eq, fir_snd]; rfl
  · rw [h1, List.dropLast_eq_take, hlen]
  · rw [h1]; rfl
  · intro n hn1 hn2
    obtain ⟨m, rfl⟩ : ∃ m, n = m + 1 := ⟨n - 1, by omega⟩
    rw [h1, List.getD_cons_succ, Nat.add_sub_cancel]
    simp only [List.getD_eq_getElem?_getD, List.getElem?_take]
    rw [if_pos (by omega)]

set_option maxRecDepth 100000 in
/-- C14, witness: the 3rd-order routine on the history `0, 1, ..., 30`. -/
theorem state_update_witness :
    (Variant.order3Low.fir ((List.range 31).map Int.ofNat) (-7)).2 =
      -7 :: ((List.range 30).map Int.ofNat) :=
  ((state_update Variant.order3Low ((List.range 31).map Int.ofNat) (-7) (by decide)).2.1).trans
    (by decide)

end WinFilter

/-! ## Claim C15: finite memory -/

namespace WinFilter

theorem take_append_take (N : Nat) (R L : List Int) :
    (R ++ L.take N).take N = (R ++ L).take N := by
  rw [List.take_append_eq_append_take, List.take_append_eq_append_take, List.take_take]
  congr 2
  omega

/-- The history after a run from any `N`-entry history: the samples, newest
first, followed by what is left of the old history. -/
theorem runFir_snd_eq (N : Nat) (c : List Int) (g : Int) (hN : 1 ≤ N) (A : List Int) :
    ∀ h : List Int, h.length = N → (runFir (fir N c g) h A).2 = (A.reverse ++ h).take N := by
  induction A with
  | nil =>
    intro h hh
    simp only [runFir, List.reverse_nil, List.nil_append]
    rw [List.take_of_length_le (by omega)]
  | cons s rest ih =>
    intro h hh
    simp only [runFir]
    rw [ih _ (by rw [fir_snd, length_firHistory, hh]), fir_snd, firHistory_eq N h s hN hh]
    have h1 : s :: List.take (N - 1) h = (s :: h).take N := by
      obtain ⟨M, rfl⟩ : ∃ M, N = M + 1 := ⟨N - 1, by omega⟩
      rfl
    rw [h1, take_append_take, List.reverse_cons, List.append_assoc]
    rfl

/-- The value returned by call `k` of a run is the value of one call on the
history left by the first `k` samples. -/
theorem runFir_fst_getElem? (f : List Int → Int → Int × List Int) (A : List Int) :
    ∀ (h : List Int) (k : Nat), k < A.length →
      (runFir f h A).1[k]? = some (f (runFir f h (A.take k)).2 (A.getD k 0)).1 := by
  induction A with
  | nil => intro h k hk; simp at hk
  | cons s rest ih =>
    intro h k hk
    rcases k with _ | k
    · simp [runFir]
    · simp only [runFir, List.getElem?_cons_succ, List.take_succ_cons, List.getD_cons_succ]
      exact ih _ k (by simpa using hk)

/-- Once `N` samples have been fed, the history no longer depends on the
history the run started from. -/
theorem runFir_snd_take_eq_histAfter (N : Nat) (c : List Int) (g : Int) (hN : 1 ≤ N)
    (A h : List Int) (hh : h.length = N) (j : Nat) (hj : N ≤ j) (hjA : j ≤ A.length) :
    (runFir (fir N c g) h (A.take j)).2 = histAfter N A j := by
  have hl : (A.take j).length = j := by rw [List.length_take]; omega
  rw [runFir_snd_eq N c g hN _ h hh, List.take_append_of_le_length (by simp; omega)]
  apply List.ext_getElem?
  intro n
  unfold histAfter
  rw [List.getElem?_take, List.getElem?_map]
  by_cases hn : n < N
  · rw [if_pos hn, List.getElem?_reverse (by omega), hl, List.getElem?_take,
      if_pos (by omega), List.getElem?_range hn, List.getElem?_eq_getElem (by omega)]
    simp only [Option.map_some', Option.some.injEq]
    rw [if_pos (by omega), List.getD_eq_getElem?_getD, List.getElem?_eq_getElem (by omega)]
    rfl
  · rw [if_neg hn, List.getElem?_eq_none (by simp; omega)]
    rfl

theorem histAfter_congr (N : Nat) (A B : List Int) (k : Nat) (hk : N ≤ k + 1)
    (hAB : ∀ n, n < N → A.getD (k - n) 0 = B.getD (k - n) 0) :
    histAfter N A (k + 1) = histAfter N B (k + 1) := by
  unfold histAfter
  apply List.map_congr_left
  intro n hn
  have hn2 : n < N := List.mem_range.mp hn
  rw [if_pos (by omega), if_pos (by omega), Nat.add_sub_cancel]
  exact hAB n hn2

/-- The value returned by call `k ≥ N - 1` of a run from any `N`-entry history,
in terms of the last `N` samples alone. -/
theorem runFir_getElem?_of_le (N : Nat) (c : List Int) (g : Int) (hN : 1 ≤ N)
    (A h : List Int) (hh : h.length = N) (k : Nat) (hk : N ≤ k + 1) (hkA : k < A.length) :
    (runFir (fir N c g) h A).1[k]? =
      some (wrap16 (truncDiv (macLoop c (histAfter N A (k + 1)) N) g)) := by
  rw [runFir_fst_getElem? _ A h k hkA]
  have h1 : (runFir (fir N c g) h (A.take (k + 1))).2 = histAfter N A (k + 1) :=
    runFir_snd_take_eq_histAfter N c g hN A h hh (k + 1) hk (by omega)
  have h2 : A.take (k + 1) = A.take k ++ [A.getD k 0] := by
    rw [List.take_succ, List.getD_eq_getElem?_getD, List.getElem?_eq_getElem hkA]
    rfl
  have h3 : ∀ (L : List Int) (x : List Int) (s : Int),
      (runFir (fir N c g) x (L ++ [s])).2 = firHistory N (runFir (fir N c g) x L).2 s := by
    intro L
    induction L with
    | nil => intro x s; rfl
    | cons a L ih => intro x s; simp only [List.cons_append, runFir]; exact ih _ s
  rw [h2, h3] at h1
  simp only [fir, firSum, h1]

/-- C15.  Finite memory.  For each of the three filters, every two 31-entry
initial histories `h1` and `h2` and every input stream `A`: after the same 31
or more samples have been fed to both runs the two histories are equal, and
from the 31st call onward (call index `k ≥ 30`) both runs return identical
outputs; the output of such a call depends only on the 31 most recent input
samples, being the same for any other stream `B` that agrees with `A` on the
samples `k - 30 .. k`. -/
theorem finite_memory (v : Variant) (h1 h2 A B : List Int)
    (hlen1 : h1.length = 31) (hlen2 : h2.length = 31) :
    (∀ j, 31 ≤ j → j ≤ A.length →
      (runFir v.fir h1 (A.take j)).2 = (runFir v.fir h2 (A.take j)).2) ∧
    (∀ k, 30 ≤ k → k < A.length → (runFir v.fir h1 A).1[k]? = (runFir v.fir h2 A).1[k]?) ∧
    (∀ k, 30 ≤ k → k < A.length → k < B.length →
      (∀ n, n < 31 → A.getD (k - n) 0 = B.getD (k - n) 0) →
      (runFir v.fir h1 A).1[k]? = (runFir v.fir h2 B).1[k]?) := by
  rw [v.fir_eq]
  refine ⟨?_, ?_, ?_⟩
  · intro j hj hjA
    rw [runFir_snd_take_eq_histAfter 31 _ _ (by decide) A h1 hlen1 j hj hjA,
      runFir_snd_take_eq_histAfter 31 _ _ (by decide) A h2 hlen2 j hj hjA]
  · intro k hk hkA
    rw [runFir_getElem?_of_le 31 _ _ (by decide) A h1 hlen1 k (by omega) hkA,
      runFir_getElem?_of_le 31 _ _ (by decide) A h2 hlen2 k (by omega) hkA]
  · intro k hk hkA hkB hAB
    rw [runFir_getElem?_of_le 31 _ _ (by decide) A h1 hlen1 k (by omega) hkA,
      runFir_getElem?_of_le 31 _ _ (by decide) B h2 hlen2 k (by omega) hkB,
      histAfter_congr 31 A B k (by omega) hAB]

set_option maxRecDepth 100000 in
/-- C15, witness: the 3rd-order routine from the zero history and from a
full-scale history, fed 32 samples `1000`: the calls 30 and 31 agree, and the
call 29 does not. -/
theorem finite_memory_witness :
    (runFir Variant.order3Low.fir (zeroHistory 31) (List.replicate 32 1000)).1[31]? =
      (runFir Variant.order3Low.fir (List.replicate 31 32767) (List.replicate 32 1000)).1[31]? ∧
    (runFir Variant.order3Low.fir (zeroHistory 31) (List.replicate 32 1000)).1[30]? =
      (runFir Variant.order3Low.fir (List.replicate 31 32767) (List.replicate 32 1000)).1[30]? ∧
    (runFir Variant.order3Low.fir (zeroHistory 31) (List.replicate 32 1000)).1[29]? ≠
      (runFir Variant.order3Low.fir (List.replicate 31 32767) (List.replicate 32 1000)).1[29]? :=
  ⟨(finite_memory Variant.order3Low (zeroHistory 31) (List.replicate 31 32767)
      (List.replicate 32 1000) [] (by decide) (by decide)).2.1 31 (by decide) (by decide),
    (finite_memory Variant.order3Low (zeroHistory 31) (List.replicate 31 32767)
      (List.replicate 32 1000) [] (by decide) (by decide)).2.1 30 (by decide) (by decide),
    by decide⟩

end WinFilter

/-! ## Claim C16: the safe operating range -/

namespace WinFilter

theorem Variant.le_safeMagnitude (v : Variant) : 6000 ≤ v.safeMagnitude := by
  cases v <;> decide

theorem Variant.isInt16_truncDiv (v : Variant) (x : List Int) (m : Nat) :
    isInt16 (truncDiv (macLoop v.FIRCoef x m) v.DCgain) := by
  rw [← v.wrap16_truncDiv x m]
  exact isInt16_wrap16 _

/-- C16.  Safe operating range.  For each of the three tables, if every entry
of the 31-entry history and the new sample have magnitude at most 6000, then no
partial sum of the accumulation leaves the signed 32-bit range and the exact
quotient fits in 16 bits, so the value returned by `fir` (32-bit accumulator,
16-bit return type) equals the exact mathematical result
`trunc(Σ FIRCoef[n] * x[n] / DCgain)`. -/
theorem safe_operating_range (v : Variant) (x : List Int) (s : Int)
    (hlen : x.length = 31) (hx : ∀ a ∈ x, |a| ≤ 6000) (hs : |s| ≤ 6000) :
    (∀ m, m ≤ 31 → isInt32 (exactSum v.FIRCoef (firHistory 31 x s) m)) ∧
    isInt16 (truncDiv (exactSum v.FIRCoef (firHistory 31 x s) 31) v.DCgain) ∧
    (v.fir x s).1 = truncDiv (exactSum v.FIRCoef (firHistory 31 x s) 31) v.DCgain := by
  have hb : ∀ n, |(firHistory 31 x s).getD n 0| ≤ v.safeMagnitude :=
    abs_getD_firHistory_le x s _ v.safeMagnitude_mul_absSum.1 hlen
      (fun a ha => le_trans (hx a ha) v.le_safeMagnitude) (le_trans hs v.le_safeMagnitude)
  have hr : ∀ m, m ≤ 31 → isInt32 (exactSum v.FIRCoef (firHistory 31 x s) m) :=
    fun m hm => isInt32_exactSum_of_safeMagnitude v _ hb m hm
  have hy : macLoop v.FIRCoef (firHistory 31 x s) 31 =
      exactSum v.FIRCoef (firHistory 31 x s) 31 :=
    macLoop_of_no_overflow _ _ _ (hr 31 le_rfl)
  refine ⟨hr, ?_, ?_⟩
  · rw [← hy]; exact v.isInt16_truncDiv _ _
  · rw [v.fir_fst, firSum, hy]

set_option maxRecDepth 100000 in
/-- C16, witness: the 4.05-5.95 MHz table, history entries alternating `6000`
and `-6000`, new sample `-6000`. -/
theorem safe_operating_range_witness :
    (Variant.order6High.fir ((List.range 31).map (fun n => if n % 2 = 0 then 6000 else -6000))
        (-6000)).1 =
      truncDiv (exactSum Variant.order6High.FIRCoef
        (firHistory 31 ((List.range 31).map (fun n => if n % 2 = 0 then 6000 else -6000))
          (-6000)) 31) Variant.order6High.DCgain :=
  (safe_operating_range Variant.order6High
    ((List.range 31).map (fun n => if n % 2 = 0 then 6000 else -6000)) (-6000)
    (by decide) (by decide) (by decide)).2.2

/-! ## Claim C17: negation -/

theorem sampleAt_negate (A : List Int) (k n : Nat) :
    sampleAt (negate A) k n = -sampleAt A k n := by
  unfold sampleAt negate
  by_cases h : n ≤ k
  · rw [if_pos h, if_pos h]
    simp only [List.getD_eq_getElem?_getD, List.getElem?_map]
    cases A[k - n]? <;> simp
  · rw [if_neg h, if_neg h]; rfl

theorem convSum_negate (c A : List Int) (k m : Nat) :
    convSum c (negate A) k m = -convSum c A k m := by
  induction m with
  | zero => rfl
  | succ m ih => simp only [convSum, ih, sampleAt_negate]; ring

theorem truncDiv_neg_left (y g : Int) : truncDiv (-y) g = -truncDiv y g :=
  Int.neg_tdiv y g

theorem length_negate (A : List Int) : (negate A).length = A.length := by
  simp [negate]

set_option maxRecDepth 100000 in
/-- C17, counterexample.  The 3rd-order filter on the 11-sample stream
`-30415 (8 times), -30411, -30402, -30399`: every sample is a 16-bit value other
than `-32768` and no accumulator overflow occurs in the run on `A`, whose sum at
call 10 is exactly `-2^31` and whose output there is `-8192`.  On `-A` the sum
at call 10 is `2^31`, which the 32-bit accumulator cannot hold; the routine
returns `-8192` again, not `8192`. -/
theorem fir_negation_fails_at_int32_min :
    (∀ a ∈ [-30415, -30415, -30415, -30415, -30415, -30415, -30415, -30415, -30411, -30402,
        (-30399 : Int)], isInt16 a ∧ a ≠ -32768) ∧
    NoOverflow Variant.order3Low.FIRCoef
      [-30415, -30415, -30415, -30415, -30415, -30415, -30415, -30415, -30411, -30402, -30399] ∧
    convSum Variant.order3Low.FIRCoef
      [-30415, -30415, -30415, -30415, -30415, -30415, -30415, -30415, -30411, -30402, -30399]
      10 31 = -2147483648 ∧
    (runFir Variant.order3Low.fir (zeroHistory 31)
      [-30415, -30415, -30415, -30415, -30415, -30415, -30415, -30415, -30411, -30402,
        -30399]).1[10]? = some (-8192) ∧
    (runFir Variant.order3Low.fir (zeroHistory 31)
      (negate [-30415, -30415, -30415, -30415, -30415, -30415, -30415, -30415, -30411, -30402,
        -30399])).1[10]? = some (-8192) ∧
    (runFir Variant.order3Low.fir (zeroHistory 31)
      (negate [-30415, -30415, -30415, -30415, -30415, -30415, -30415, -30415, -30411, -30402,
        -30399])).1.getD 10 0 ≠
      -(runFir Variant.order3Low.fir (zeroHistory 31)
        [-30415, -30415, -30415, -30415, -30415, -30415, -30415, -30415, -30411, -30402,
          -30399]).1.getD 10 0 ∧
    ¬ NoOverflow Variant.order3Low.FIRCoef
      (negate [-30415, -30415, -30415, -30415, -30415, -30415, -30415, -30415, -30411, -30402,
        -30399]) := by
  refine ⟨by decide, by decide, by decide, by decide, by decide, by decide, by decide⟩

/-- C17 (amended).  Odd symmetry under negation.  For each of the three filters
and every input stream `A` of 16-bit samples all different from `-32768`, such
that no accumulator overflow occurs in the run on `A` nor in the run on the
negated stream `-A`: the negated stream is again a stream of 16-bit samples,
and running the filter from the zero history on `-A` returns at every step
exactly the negation of the output for `A`, with no rounding error, because the
final divide truncates toward zero. -/
theorem fir_negation (v : Variant) (A : List Int) (i : Nat)
    (hA : ∀ a ∈ A, isInt16 a ∧ a ≠ -32768)
    (hno : NoOverflow v.FIRCoef A) (hnoN : NoOverflow v.FIRCoef (negate A))
    (hi : i < A.length) :
    (∀ a ∈ negate A, isInt16 a) ∧
    (runFir v.fir (zeroHistory 31) (negate A)).1.getD i 0 =
      -(runFir v.fir (zeroHistory 31) A).1.getD i 0 := by
  constructor
  · intro a ha
    obtain ⟨b, hb, rfl⟩ := List.mem_map.mp ha
    have := hA b hb
    unfold isInt16 at this ⊢
    omega
  · rw [v.runFir_zero_of_noOverflow _ i (by rw [length_negate]; exact hi) hnoN,
      v.runFir_zero_of_noOverflow A i hi hno, convSum_negate, truncDiv_neg_left]

set_option maxRecDepth 100000 in
/-- C17 (amended), witness: the 4.05-5.95 MHz filter on `[1000, -2000, 32767]`,
at step 2. -/
theorem fir_negation_witness :
    (runFir Variant.order6High.fir (zeroHistory 31) (negate [1000, -2000, 32767])).1.getD 2 0 =
      -(runFir Variant.order6High.fir (zeroHistory 31) [1000, -2000, 32767]).1.getD 2 0 :=
  (fir_negation Variant.order6High [1000, -2000, 32767] 2 (by decide) (by decide) (by decide)
    (by decide)).2

/-! ## Claim C18: time invariance -/

theorem exactSum_eq_zero_of_zero_history (c x : List Int) (hx : ∀ n, x.getD n 0 = 0)
    (m : Nat) : exactSum c x m = 0 := by
  induction m with
  | zero => rfl
  | succ m ih => rw [exactSum, ih, hx]; simp

/-- A zero sample fed to the zero history returns `0` and leaves the zero
history. -/
theorem fir_zeroHistory_zero (N : Nat) (c : List Int) (g : Int) (hN : 1 ≤ N) :
    fir N c g (zeroHistory N) 0 = (0, zeroHistory N) := by
  have hh : firHistory N (zeroHistory N) 0 = zeroHistory N := by
    rw [firHistory_eq N _ 0 hN (by simp [zeroHistory])]
    unfold zeroHistory
    rw [List.take_replicate, ← List.replicate_succ]
    congr 1
    omega
  unfold fir firSum
  rw [hh, macLoop_eq_wrap32,
    exactSum_eq_zero_of_zero_history c (zeroHistory N) (fun n => getD_replicate_zero N n)]
  have h0 : wrap32 0 = 0 := by decide
  rw [h0]
  unfold truncDiv
  rw [Int.zero_tdiv]
  rfl

theorem runFir_replicate_zero_append (N : Nat) (c : List Int) (g : Int) (hN : 1 ≤ N)
    (A : List Int) (d : Nat) :
    runFir (fir N c g) (zeroHistory N) (List.replicate d 0 ++ A) =
      (List.replicate d 0 ++ (runFir (fir N c g) (zeroHistory N) A).1,
        (runFir (fir N c g) (zeroHistory N) A).2) := by
  induction d with
  | zero => rfl
  | succ d ih =>
    rw [List.replicate_succ, List.cons_append]
    simp only [runFir, fir_zeroHistory_zero N c g hN, ih]
    rfl

/-- C18.  Time invariance.  For each of the three filters, every input stream
`A` and every `d ≥ 0`, running the filter from the zero history on `d` zero
samples followed by `A` returns `d` zeros followed by exactly the outputs of
running it from the zero history on `A`, and leaves the same history. -/
theorem time_invariance (v : Variant) (A : List Int) (d : Nat) :
    (runFir v.fir (zeroHistory v.Ntap) (List.replicate d 0 ++ A)).1 =
      List.replicate d 0 ++ (runFir v.fir (zeroHistory v.Ntap) A).1 ∧
    (runFir v.fir (zeroHistory v.Ntap) (List.replicate d 0 ++ A)).2 =
      (runFir v.fir (zeroHistory v.Ntap) A).2 := by
  rw [v.Ntap_eq, v.fir_eq, runFir_replicate_zero_append 31 _ _ (by decide) A d]
  exact ⟨rfl, rfl⟩

end WinFilter
